import Mathlib

/-!
# Tic-tac-toe engine of `script.js`

A shallow embedding of the game logic of `src/script.js` (board, winner
detection, move application, minimax search, move selection) together with
theorems about it.  The DOM side (cell text, CSS classes, status line,
scoreboard text) is not modelled: it never feeds back into the game variables.

Conventions of the embedding:

* a cell of `gameState` is `none` for the empty string and `some p` for a mark;
* an array read `board[i]` is the list lookup `board[i]?`, whose `none` is the
  JavaScript `undefined` of an index outside the array;
* the numbers handled by the search are integers and the two infinities;
* the mutable `board` of `minimax` is threaded through the calls, so the
  functions return the board next to their result;
* the recursion of `minimax` is driven by a fuel argument; running out of fuel
  is the outer `none`.  `minimax_total` and `findBestMove_total` show that on a
  nine-cell board it is never reached with the fuel `searchFuel` the top-level
  calls use;
* the results of the successive calls of `Math.random()` are an explicit
  sequence of doubles in `[0, 1)` (`Draw`); the literals `0.6` and `0.3` are the
  doubles they denote, and the product `Math.random() * emptyCells.length` is
  rounded to the nearest double, ties to even, before `Math.floor` sees it;
* a reply scheduled with `setTimeout` is an event of its own: a `Session` counts
  the replies that are scheduled and have not run yet, and clicks and replies
  are interleaved by `Session.run`.
-/

namespace TicTacToe

/-! ## Data model -/

/-- The two marks, the strings X and O of the script. -/
inductive Player where
  | X
  | O
deriving DecidableEq, Repr

/-- The other mark: the script writes it as a conditional on the mark. -/
def Player.other : Player → Player
  | .X => .O
  | .O => .X

/-- A cell of the board array: `none` is the empty string. -/
abbrev Cell := Option Player

/-- The board array `gameState` (nine cells in every state the script builds). -/
abbrev Board := List Cell

/-- The numbers the search works with: integers and the two infinities. -/
inductive Score where
  | negInf
  | fin (v : Int)
  | posInf
deriving DecidableEq, Repr

/-- The strict comparison `a > b` of JavaScript numbers. -/
def Score.gt : Score → Score → Bool
  | .negInf, _ => false
  | .fin _, .negInf => true
  | .fin a, .fin b => decide (b < a)
  | .fin _, .posInf => false
  | .posInf, .posInf => false
  | .posInf, _ => true

/-- The library call `Math.max(a, b)`. -/
def Score.max (a b : Score) : Score := if Score.gt b a then b else a

/-- The library call `Math.min(a, b)`. -/
def Score.min (a b : Score) : Score := if Score.gt a b then b else a

/-- The game variables of the script (lines 17-28). -/
structure Game where
  currentPlayer : Player
  gameState : Board
  gameActive : Bool
  vsAI : Bool
  aiPlayer : Player
  difficulty : String
  scoreX : Nat
  scoreO : Nat
deriving DecidableEq, Repr

/-- The empty board: nine empty strings. -/
def emptyBoard : Board := [none, none, none, none, none, none, none, none, none]

/-- The values the game variables are initialised with. -/
def initialGame : Game :=
  { currentPlayer := .X, gameState := emptyBoard, gameActive := true, vsAI := false,
    aiPlayer := .O, difficulty := "medium", scoreX := 0, scoreO := 0 }

/-- The constant `winningConditions`, in the order of the script. -/
def winningConditions : List (Nat × Nat × Nat) :=
  [(0, 1, 2), (3, 4, 5), (6, 7, 8),
   (0, 3, 6), (1, 4, 7), (2, 5, 8),
   (0, 4, 8), (2, 4, 6)]

/-! ## Winner detection -/

/-- The test of one line,
`board[a] && board[a] === board[b] && board[a] === board[c]`, giving the mark
`board[a]` when it holds. -/
def lineWinner (board : Board) (line : Nat × Nat × Nat) : Option Player :=
  match board[line.1]? with
  | some (some p) =>
    if board[line.1]? = board[line.2.1]? ∧ board[line.1]? = board[line.2.2]? then
      some p
    else none
  | _ => none

/-- The loop over the lines, first hit returns. -/
def scanLines (board : Board) : List (Nat × Nat × Nat) → Option Player
  | [] => none
  | line :: rest =>
    match lineWinner board line with
    | some p => some p
    | none => scanLines board rest

/-- The function `checkWinnerForMinimax(board)`; `none` is its `null`. -/
def checkWinnerForMinimax (board : Board) : Option Player :=
  scanLines board winningConditions

/-- The function `checkWinner()`, which reads the game board (the highlighting
of the winning cells is a DOM effect). -/
def checkWinner (g : Game) : Option Player :=
  scanLines g.gameState winningConditions

/-- The three cells of `line` all hold the mark `p`. -/
def lineComplete (board : Board) (line : Nat × Nat × Nat) (p : Player) : Prop :=
  board[line.1]? = some (some p) ∧ board[line.2.1]? = some (some p) ∧
    board[line.2.2]? = some (some p)

/-- The call `board.includes('')`. -/
def includesEmpty (board : Board) : Bool := board.contains none

/-! ## Minimax search -/

/-- The `for (let i = 0; i < 9; i++)` loop of `minimax`, shared by its two
branches: `mark` is the mark placed, `pick` is `Math.max` or `Math.min`, and
`recur` is the recursive call.  Each round on an empty cell writes the mark,
recurses (the callee may write to the board too), writes the empty string back
and folds the score into `bestScore`. -/
def minimaxLoop (recur : Board → Option (Score × Board)) (mark : Player)
    (pick : Score → Score → Score) : List Nat → Score → Board → Option (Score × Board)
  | [], bestScore, board => some (bestScore, board)
  | i :: rest, bestScore, board =>
    if board[i]? = some none then
      match recur (board.set i (some mark)) with
      | none => none
      | some (score, board1) =>
        minimaxLoop recur mark pick rest (pick score bestScore) (board1.set i none)
    else minimaxLoop recur mark pick rest bestScore board

/-- The function `minimax(board, depth, isMaximizing)` for the computer mark
`ai`; the result carries the board as the call leaves it. -/
def minimax (ai : Player) : Nat → Board → Int → Bool → Option (Score × Board)
  | 0, _, _, _ => none
  | fuel + 1, board, depth, isMaximizing =>
    let winner := checkWinnerForMinimax board
    if winner = some ai then some (.fin (10 - depth), board)
    else if winner = some ai.other then some (.fin (depth - 10), board)
    else if !includesEmpty board then some (.fin 0, board)
    else if isMaximizing then
      minimaxLoop (fun b => minimax ai fuel b (depth + 1) false) ai Score.max
        (List.range 9) .negInf board
    else
      minimaxLoop (fun b => minimax ai fuel b (depth + 1) true) ai.other Score.min
        (List.range 9) .posInf board

/-- The fuel the top-level calls start the search with: one more than the
number of cells the loops can fill. -/
def searchFuel : Nat := 10

/-- The loop of `findBestMove`: `bestMove` is `none` while the variable is
still `undefined`. -/
def findBestMoveLoop (ai : Player) (fuel : Nat) :
    List Nat → Score → Option Nat → Board → Option (Option Nat × Board)
  | [], _, bestMove, board => some (bestMove, board)
  | i :: rest, bestScore, bestMove, board =>
    if board[i]? = some none then
      match minimax ai fuel (board.set i (some ai)) 0 false with
      | none => none
      | some (score, board1) =>
        if Score.gt score bestScore then
          findBestMoveLoop ai fuel rest score (some i) (board1.set i none)
        else findBestMoveLoop ai fuel rest bestScore bestMove (board1.set i none)
    else findBestMoveLoop ai fuel rest bestScore bestMove board

/-- The function `findBestMove()` on the board `gameState` with `aiPlayer = ai`:
the move (or `none` for `undefined`) and the board as the call leaves it. -/
def findBestMove (ai : Player) (board : Board) : Option (Option Nat × Board) :=
  findBestMoveLoop ai searchFuel (List.range 9) .negInf none board

/-! ## The doubles of the move selector -/

/-- A result of `Math.random()`: a double in `[0, 1)`, the number
`mant / 2 ^ expo`.  The doubles in `[0, 1)` are exactly these numbers: a normal
double `m * 2 ^ (e - 52)` with `2 ^ 52 ≤ m < 2 ^ 53` and `-1022 ≤ e ≤ -1` has
`expo = 52 - e`, and a subnormal one is `m / 2 ^ 1074` with `m < 2 ^ 52`. -/
structure Draw where
  mant : Nat
  expo : Nat
  mant_lt : mant < 2 ^ 53
  expo_ge : 53 ≤ expo
  expo_le : expo ≤ 1074

/-- The number a draw stands for. -/
def Draw.value (r : Draw) : ℚ := (r.mant : ℚ) / 2 ^ r.expo

/-- The comparison `a < b` of two doubles in `[0, 1)`, cross-multiplied. -/
def Draw.lt (a b : Draw) : Bool := decide (a.mant * 2 ^ b.expo < b.mant * 2 ^ a.expo)

/-- The double `0`. -/
def Draw.zero : Draw := ⟨0, 53, by decide, by decide, by decide⟩

/-- The literal `0.6`: the double nearest to 6/10, `5404319552844595 / 2 ^ 53`. -/
def literal06 : Draw := ⟨5404319552844595, 53, by decide, by decide, by decide⟩

/-- The literal `0.3`: the double nearest to 3/10, `5404319552844595 / 2 ^ 54`. -/
def literal03 : Draw := ⟨5404319552844595, 54, by decide, by decide, by decide⟩

/-- The search for `roundShift`: the least `s` from `s` on with
`num / 2 ^ s < 2 ^ 53`. -/
def roundShiftFrom (num : Nat) : Nat → Nat → Nat
  | 0, s => s
  | fuel + 1, s => if num / 2 ^ s < 2 ^ 53 then s else roundShiftFrom num fuel (s + 1)

/-- The number of low bits of `num` that a 53-bit significand cannot hold: the
least `s` with `num / 2 ^ s < 2 ^ 53`. -/
def roundShift (num : Nat) : Nat := roundShiftFrom num num 0

/-- Rounding of a numerator to 53 significant bits, to nearest and ties to
even: the rounding of a double operation whose exact result is
`num / 2 ^ expo` (for `expo ≤ 1074` a result that needs rounding is in the
normal range). -/
def roundSig53 (num : Nat) : Nat :=
  if num < 2 ^ 53 then num
  else if 2 * (num % 2 ^ roundShift num) < 2 ^ roundShift num then
    num / 2 ^ roundShift num * 2 ^ roundShift num
  else if 2 * (num % 2 ^ roundShift num) = 2 ^ roundShift num ∧
      num / 2 ^ roundShift num % 2 = 0 then
    num / 2 ^ roundShift num * 2 ^ roundShift num
  else (num / 2 ^ roundShift num + 1) * 2 ^ roundShift num

/-- The expression `Math.floor(r * n)` for a draw `r` and an array length `n`:
the exact product `r.mant * n / 2 ^ r.expo` is rounded to a double, then floored. -/
def floorTimes (r : Draw) (n : Nat) : Nat := roundSig53 (r.mant * n) / 2 ^ r.expo

/-- The double `0.6666666666666666`, `6004799503160661 / 2 ^ 53`. -/
def twoThirds : Draw := ⟨6004799503160661, 53, by decide, by decide, by decide⟩

/-- The sequence of draws that starts with the listed ones and goes on with `0`. -/
def drawsFrom (first : List Draw) (n : Nat) : Draw := first[n]?.getD Draw.zero

/-! ## Game controller -/

/-- The function `handleWin(winner)`. -/
def handleWin (g : Game) (winner : Player) : Game :=
  if winner = .X then { g with gameActive := false, scoreX := g.scoreX + 1 }
  else { g with gameActive := false, scoreO := g.scoreO + 1 }

/-- The function `handleDraw()`. -/
def handleDraw (g : Game) : Game := { g with gameActive := false }

/-- The function `makeMove(index, player)` for an index of the board, which is
what both call sites pass: `handleCellClick` after it has read the empty string
from `gameState[index]`, and the computer reply with a member of `emptyCells`.
At an index outside the board the script throws at `cells[index].textContent`:
the model covers the indices of the board only, and the main theorems about
`makeMove` are stated for such an index (an empty cell, or an index below the
length of the board). -/
def makeMove (g : Game) (index : Nat) (player : Player) : Game :=
  let g1 := { g with gameState := g.gameState.set index (some player) }
  match checkWinner g1 with
  | some winner => handleWin g1 winner
  | none =>
    if !includesEmpty g1.gameState then handleDraw g1
    else { g1 with currentPlayer := if g1.currentPlayer = .X then .O else .X }

/-- The array read `gameState[i]` at an integer index: `none` is `undefined`. -/
def readCell (board : Board) (i : Int) : Option Cell :=
  if 0 ≤ i then board[i.toNat]? else none

/-- The handler `handleCellClick` for a click on the cell with `data-index`
`clickedCellIndex` (an index that is no number reads `undefined`, like any index
outside the array).  The second component tells whether the handler has
scheduled the computer reply (the `setTimeout` call). -/
def handleCellClick (g : Game) (clickedCellIndex : Int) : Game × Bool :=
  if readCell g.gameState clickedCellIndex ≠ some none ∨ g.gameActive = false then (g, false)
  else
    let g1 := makeMove g clickedCellIndex.toNat g.currentPlayer
    (g1, g1.vsAI && g1.gameActive && decide (g1.currentPlayer = g1.aiPlayer))

/-- The list `emptyCells` of `getAIMove`: the indices of the empty cells, ascending. -/
def emptyCellsOf (board : Board) : List Nat :=
  (List.range board.length).filter (fun i => board[i]? = some none)

/-- The expression `emptyCells[Math.floor(r * emptyCells.length)]` for a draw `r`. -/
def randomCell (emptyCells : List Nat) (r : Draw) : Option Nat :=
  emptyCells[floorTimes r emptyCells.length]?

/-- The `hard` and `default` case of `getAIMove`. -/
def hardMove (g : Game) : Option (Option Nat × Game) :=
  match findBestMove g.aiPlayer g.gameState with
  | none => none
  | some (move, board) => some (move, { g with gameState := board })

/-- The `medium` case of `getAIMove`, falling through to the `hard` case. -/
def mediumMove (g : Game) (emptyCells : List Nat) (draws : Nat → Draw) :
    Option (Option Nat × Game) :=
  if (draws 0).lt literal03 then some (randomCell emptyCells (draws 1), g) else hardMove g

/-- The function `getAIMove()`; `draws` lists the results of the successive
calls of `Math.random()`.  A result `none` for the move is `null` or `undefined`. -/
def getAIMove (g : Game) (draws : Nat → Draw) : Option (Option Nat × Game) :=
  let emptyCells := emptyCellsOf g.gameState
  if emptyCells.length = 0 then some (none, g)
  else if g.difficulty = "easy" then
    if (draws 0).lt literal06 then some (randomCell emptyCells (draws 1), g)
    else mediumMove g emptyCells (fun n => draws (n + 1))
  else if g.difficulty = "medium" then mediumMove g emptyCells draws
  else hardMove g

/-- The callback the handlers schedule with `setTimeout`: ask `getAIMove` and
play its move as the computer. -/
def aiReply (g : Game) (draws : Nat → Draw) : Option Game :=
  match getAIMove g draws with
  | none => none
  | some (none, g1) => some g1
  | some (some move, g1) => some (makeMove g1 move g1.aiPlayer)

/-- The function `resetGame()`; the second component tells whether the
computer opening move has been scheduled. -/
def resetGame (g : Game) : Game × Bool :=
  ({ g with currentPlayer := .X, gameState := emptyBoard, gameActive := true },
   g.vsAI && decide (g.aiPlayer = .X))

/-- The function `restartGame()`. -/
def restartGame (g : Game) : Game × Bool :=
  resetGame { g with scoreX := 0, scoreO := 0 }


/-- The game on `board` with `current` to move, the other variables as at the start. -/
def gameOn (board : Board) (current : Player) : Game :=
  { initialGame with gameState := board, currentPlayer := current }

/-- A board of a game under way, with O to move: X on 0, 2, 3, 7 and O on 1, 4. -/
def midgameBoard : Board :=
  [some .X, some .O, some .X, some .X, some .O, none, none, some .X, none]

/-! ## Order on the scores -/

/-- The comparison `a <= b` of JavaScript numbers. -/
def Score.le (a b : Score) : Prop := Score.gt a b = false

instance : LE Score := ⟨Score.le⟩

instance : LT Score := ⟨fun a b => Score.gt b a = true⟩

/-- The scores are linearly ordered by the comparison of the script, with
`Math.max` and `Math.min` as maximum and minimum. -/
instance : LinearOrder Score where
  le_refl a := show Score.gt a a = false by cases a <;> simp [Score.gt]
  le_trans a b c h1 h2 := show Score.gt a c = false by
    have h3 : Score.gt a b = false := h1
    have h4 : Score.gt b c = false := h2
    cases a <;> cases b <;> cases c <;> simp_all [Score.gt]
    omega
  lt_iff_le_not_le a b :=
    show Score.gt b a = true ↔ Score.gt a b = false ∧ ¬ Score.gt b a = false by
    cases a <;> cases b <;> simp [Score.gt]
    omega
  le_antisymm a b h1 h2 := by
    have h3 : Score.gt a b = false := h1
    have h4 : Score.gt b a = false := h2
    cases a <;> cases b <;> simp_all [Score.gt]
    omega
  le_total a b := show Score.gt a b = false ∨ Score.gt b a = false by
    cases a <;> cases b <;> simp [Score.gt]
    omega
  decidableLE a b := inferInstanceAs (Decidable (Score.gt a b = false))
  max := Score.max
  min := Score.min
  max_def a b := show Score.max a b = if Score.gt a b = false then b else a by
    unfold Score.max
    cases a <;> cases b <;> simp [Score.gt]
    split <;> split <;> first | rfl | omega | (congr 1; omega)
  min_def a b := show Score.min a b = if Score.gt a b = false then a else b by
    unfold Score.min
    cases a <;> cases b <;> simp [Score.gt]
    split <;> split <;> first | rfl | omega

/-- The greatest score of a list, minus infinity for the empty list. -/
def Score.maximum : List Score → Score
  | [] => .negInf
  | s :: rest => Score.max s (Score.maximum rest)

/-- The least score of a list, plus infinity for the empty list. -/
def Score.minimum : List Score → Score
  | [] => .posInf
  | s :: rest => Score.min s (Score.minimum rest)

/-! ## Reference recursion of the search -/

/-- The reference recursion the search is compared with: the three terminal
values, and otherwise the maximum (on a maximizing ply) or the minimum (on a
minimizing ply) over the empty cells of the value of the board with that cell
filled, one level deeper and with the ply flipped.  The first argument bounds
the number of plies that may still be played. -/
def minimaxRef (ai : Player) : Nat → Board → Int → Bool → Score
  | n, board, depth, isMaximizing =>
    if checkWinnerForMinimax board = some ai then .fin (10 - depth)
    else if checkWinnerForMinimax board = some ai.other then .fin (depth - 10)
    else if includesEmpty board = false then .fin 0
    else
      match n with
      | 0 => if isMaximizing then .negInf else .posInf
      | k + 1 =>
        if isMaximizing then
          Score.maximum ((emptyCellsOf board).map fun i =>
            minimaxRef ai k (board.set i (some ai)) (depth + 1) false)
        else
          Score.minimum ((emptyCellsOf board).map fun i =>
            minimaxRef ai k (board.set i (some ai.other)) (depth + 1) true)

/-- The reference value of a board: the reference recursion with as many plies
allowed as the board has empty cells. -/
def minimaxReference (ai : Player) (board : Board) (depth : Int) (isMaximizing : Bool) : Score :=
  minimaxRef ai (board.count none) board depth isMaximizing

/-- The score `findBestMove` gives the empty cell `i`: the score `minimax`
returns for the board with the computer mark on `i`, at depth `0` with the
opponent to move. -/
def moveScore (ai : Player) (board : Board) (i : Nat) : Option Score :=
  (minimax ai searchFuel (board.set i (some ai)) 0 false).map Prod.fst

/-! ## Who can hold a draw -/

/-- The player `ai` can hold at least a draw from `board`: no line of the
opponent is complete and, unless the game is over, some move of `ai` (when
`isMaximizing`, that is when `ai` is to move) or every move of the opponent
leads to a board with the same property.  The first argument bounds the number
of plies looked at, as in `minimaxRef`. -/
def canDraw (ai : Player) : Nat → Board → Bool → Bool
  | n, board, isMaximizing =>
    if checkWinnerForMinimax board = some ai then true
    else if checkWinnerForMinimax board = some ai.other then false
    else if includesEmpty board = false then true
    else
      match n with
      | 0 => !isMaximizing
      | k + 1 =>
        if isMaximizing then
          (emptyCellsOf board).any fun i => canDraw ai k (board.set i (some ai)) false
        else
          (emptyCellsOf board).all fun i => canDraw ai k (board.set i (some ai.other)) true

/-! ## A decision procedure for `canDraw`

The definitions below recompute `canDraw` on a board given cell by cell, with
the cells tried from the centre outwards and the search cut at the first
success.  They serve the evaluation of `canDraw` on concrete boards. -/

/-- Three cells hold the same mark. -/
def line3 : Cell → Cell → Cell → Bool
  | some .X, some .X, some .X => true
  | some .O, some .O, some .O => true
  | _, _, _ => false

/-- The mark of a line of three cells, if it is complete. -/
def pickLine (x y z : Cell) : Option Player :=
  match line3 x y z with
  | true => x
  | false => none

/-- The winner evaluator on a board given cell by cell. -/
def firstLine9 (c0 c1 c2 c3 c4 c5 c6 c7 c8 : Cell) : Option Player :=
  match pickLine c0 c1 c2 with
  | some p => some p
  | none =>
  match pickLine c3 c4 c5 with
  | some p => some p
  | none =>
  match pickLine c6 c7 c8 with
  | some p => some p
  | none =>
  match pickLine c0 c3 c6 with
  | some p => some p
  | none =>
  match pickLine c1 c4 c7 with
  | some p => some p
  | none =>
  match pickLine c2 c5 c8 with
  | some p => some p
  | none =>
  match pickLine c0 c4 c8 with
  | some p => some p
  | none =>
  match pickLine c2 c4 c6 with
  | some p => some p
  | none =>
  none

/-- Some cell of the board is empty. -/
def hasEmpty : Board → Bool
  | [] => false
  | none :: _ => true
  | some _ :: rest => hasEmpty rest

/-- The value `k` if the cell is empty, `dflt` if it is taken. -/
def tryCell (c : Cell) (k : Bool) (dflt : Bool) : Bool :=
  match c with
  | none => k
  | some _ => dflt

/-- The marks `p` and `q` are the same. -/
def sameMark : Player → Player → Bool
  | .X, .X => true
  | .O, .O => true
  | _, _ => false

/-- One node of `drawCheck`: `recur` is the procedure with one ply less. -/
def drawNode (me opp : Player) (recur : Board → Bool → Bool)
    (c0 c1 c2 c3 c4 c5 c6 c7 c8 : Cell) (myTurn : Bool) : Bool :=
  match firstLine9 c0 c1 c2 c3 c4 c5 c6 c7 c8 with
  | some w => sameMark w me
  | none =>
    match hasEmpty [c0, c1, c2, c3, c4, c5, c6, c7, c8] with
    | false => true
    | true =>
      match myTurn with
      | true =>
        tryCell c4 (recur [c0, c1, c2, c3, some me, c5, c6, c7, c8] false) false ||
        tryCell c0 (recur [some me, c1, c2, c3, c4, c5, c6, c7, c8] false) false ||
        tryCell c2 (recur [c0, c1, some me, c3, c4, c5, c6, c7, c8] false) false ||
        tryCell c6 (recur [c0, c1, c2, c3, c4, c5, some me, c7, c8] false) false ||
        tryCell c8 (recur [c0, c1, c2, c3, c4, c5, c6, c7, some me] false) false ||
        tryCell c1 (recur [c0, some me, c2, c3, c4, c5, c6, c7, c8] false) false ||
        tryCell c3 (recur [c0, c1, c2, some me, c4, c5, c6, c7, c8] false) false ||
        tryCell c5 (recur [c0, c1, c2, c3, c4, some me, c6, c7, c8] false) false ||
        tryCell c7 (recur [c0, c1, c2, c3, c4, c5, c6, some me, c8] false) false
      | false =>
        tryCell c4 (recur [c0, c1, c2, c3, some opp, c5, c6, c7, c8] true) true &&
        tryCell c0 (recur [some opp, c1, c2, c3, c4, c5, c6, c7, c8] true) true &&
        tryCell c2 (recur [c0, c1, some opp, c3, c4, c5, c6, c7, c8] true) true &&
        tryCell c6 (recur [c0, c1, c2, c3, c4, c5, some opp, c7, c8] true) true &&
        tryCell c8 (recur [c0, c1, c2, c3, c4, c5, c6, c7, some opp] true) true &&
        tryCell c1 (recur [c0, some opp, c2, c3, c4, c5, c6, c7, c8] true) true &&
        tryCell c3 (recur [c0, c1, c2, some opp, c4, c5, c6, c7, c8] true) true &&
        tryCell c5 (recur [c0, c1, c2, c3, c4, some opp, c6, c7, c8] true) true &&
        tryCell c7 (recur [c0, c1, c2, c3, c4, c5, c6, some opp, c8] true) true

/-- The player `me` (with opponent `opp`) can hold a draw on the nine-cell
board, looking `fuel` plies ahead; `myTurn` tells whether `me` is to move. -/
def drawCheck (me opp : Player) : Nat → Board → Bool → Bool
  | fuel + 1, [c0, c1, c2, c3, c4, c5, c6, c7, c8], myTurn =>
    drawNode me opp (drawCheck me opp fuel) c0 c1 c2 c3 c4 c5 c6 c7 c8 myTurn
  | _, _, _ => false

/-! ## Play against the computer at the hard difficulty -/

/-- The game variables once the mode against the computer and the difficulty
`hard` have been chosen: the computer plays O and the human, X, moves first. -/
def hardGame : Game := { initialGame with vsAI := true, difficulty := "hard" }

/-- The states of a game against the computer at the hard difficulty in which
every scheduled reply runs before the next click.  The flag tells whether a
reply is scheduled and has not run yet. -/
inductive HardPlay : Game → Bool → Prop where
  | start : HardPlay hardGame false
  | click (g : Game) (i : Int) :
      HardPlay g false → HardPlay (handleCellClick g i).1 (handleCellClick g i).2
  | reply (g g1 : Game) (draws : Nat → Draw) :
      HardPlay g true → aiReply g draws = some g1 → HardPlay g1 false

/-- What holds in every state of `HardPlay`: the settings are kept, X has no
win recorded, an active game has no winner, an empty cell, the expected player
to move and a board from which the computer can hold a draw, and a finished
game is a win of O or a draw. -/
def HardInv (g : Game) (pending : Bool) : Prop :=
  g.vsAI = true ∧ g.aiPlayer = .O ∧ g.difficulty = "hard" ∧ g.gameState.length = 9 ∧
  g.scoreX = 0 ∧
  (g.gameActive = true →
    checkWinnerForMinimax g.gameState = none ∧ includesEmpty g.gameState = true ∧
    g.currentPlayer = (if pending = true then Player.O else Player.X) ∧
    canDraw .O (g.gameState.count none) g.gameState pending = true) ∧
  (g.gameActive = false →
    pending = false ∧
    (checkWinnerForMinimax g.gameState = some .O ∨
      (checkWinnerForMinimax g.gameState = none ∧ includesEmpty g.gameState = false)))

/-! ## Both sides playing `findBestMove` -/

/-- One turn of self-play: the side to move takes the role of the computer
(`aiPlayer` is set to the current player) and the reply callback runs at the
hard difficulty, that is `makeMove(findBestMove(), aiPlayer)`. -/
def selfPlayTurn (g : Game) : Option Game :=
  aiReply { g with aiPlayer := g.currentPlayer, difficulty := "hard" } (fun _ => Draw.zero)

/-- Self-play for at most `n` turns, stopping when the game is no longer active. -/
def selfPlay : Nat → Game → Option Game
  | 0, g => some g
  | n + 1, g =>
    if g.gameActive = true then
      match selfPlayTurn g with
      | none => none
      | some g1 => selfPlay n g1
    else some g

/-- A game that ended in a draw: inactive, full board, no winner. -/
def IsDraw (g : Game) : Prop :=
  g.gameActive = false ∧ includesEmpty g.gameState = false ∧ checkWinner g = none

/-- What holds before every turn of self-play: the game is active on a nine-cell
board with an empty cell and no winner, and both the side to move and the other
side can hold a draw. -/
def SelfInv (g : Game) : Prop :=
  g.gameActive = true ∧ g.gameState.length = 9 ∧
  checkWinnerForMinimax g.gameState = none ∧ includesEmpty g.gameState = true ∧
  canDraw g.currentPlayer (g.gameState.count none) g.gameState true = true ∧
  canDraw g.currentPlayer.other (g.gameState.count none) g.gameState false = true

/-! ## Games played by clicks -/

/-- The players passed to `makeMove` by the accepted clicks of a sequence of
clicks, in order: a click that passes the guard of `handleCellClick` moves for
the current player, a rejected click moves for nobody. -/
def clickMovers : Game → List Int → List Player
  | _, [] => []
  | g, i :: rest =>
    if readCell g.gameState i ≠ some none ∨ g.gameActive = false then clickMovers g rest
    else g.currentPlayer :: clickMovers (handleCellClick g i).1 rest

/-! ## Two-player games -/

/-- The states of the two-player mode: those reached from the initial state by
clicks on cells and by the two reset buttons. -/
inductive TwoPlayer : Game → Prop where
  | start : TwoPlayer initialGame
  | click (g : Game) (i : Int) : TwoPlayer g → TwoPlayer (handleCellClick g i).1
  | newGame (g : Game) : TwoPlayer g → TwoPlayer (resetGame g).1
  | fullReset (g : Game) : TwoPlayer g → TwoPlayer (restartGame g).1

/-- The number of cells of the board that hold the mark `p`. -/
def markCount (board : Board) (p : Player) : Nat := board.count (some p)

/-- What holds in every state of `TwoPlayer`: there are as many X as O, or one
more, and in an active game X is to move in the first case and O in the second. -/
def TwoPlayerInv (g : Game) : Prop :=
  g.vsAI = false ∧
  (markCount g.gameState .X = markCount g.gameState .O ∨
    markCount g.gameState .X = markCount g.gameState .O + 1) ∧
  (g.gameActive = true →
    (g.currentPlayer = .X ∧ markCount g.gameState .X = markCount g.gameState .O) ∨
    (g.currentPlayer = .O ∧ markCount g.gameState .X = markCount g.gameState .O + 1))

/-! ## The move selector as a function of the draws -/

/-- The move `getAIMove` returns, without the game it hands back. -/
def aiMove (g : Game) (draws : Nat → Draw) : Option (Option Nat) :=
  (getAIMove g draws).map Prod.fst

/-! ## Sessions: clicks and scheduled replies -/

/-- The game variables together with the number of computer replies that have
been scheduled with `setTimeout` and have not run yet. -/
structure Session where
  game : Game
  pending : Nat
deriving DecidableEq, Repr

/-- What can happen next in a session: a click on the cell with the given
`data-index`, or the run of a scheduled reply, with the draws `Math.random()`
gives it. -/
inductive Event where
  | click (i : Int)
  | reply (draws : Nat → Draw)

/-- One event of a session.  A click runs `handleCellClick` and counts the reply
it may schedule; a reply runs the scheduled callback, and cannot happen (`none`)
when nothing is scheduled. -/
def Session.step (s : Session) : Event → Option Session
  | .click i =>
    some { game := (handleCellClick s.game i).1,
           pending := s.pending + (if (handleCellClick s.game i).2 = true then 1 else 0) }
  | .reply draws =>
    if s.pending = 0 then none
    else
      match aiReply s.game draws with
      | none => none
      | some g1 => some { game := g1, pending := s.pending - 1 }

/-- A sequence of events, one after the other. -/
def Session.run (s : Session) : List Event → Option Session
  | [] => some s
  | e :: rest =>
    match s.step e with
    | none => none
    | some s1 => s1.run rest

/-- The start of a game against the computer at the hard difficulty: nothing
is scheduled. -/
def hardSession : Session := { game := hardGame, pending := 0 }

/-- The board `after` is the board `before` with the empty cell `i` filled with
the mark `p`, and nothing else changed. -/
def FillsCell (before after : Board) (i : Nat) (p : Player) : Prop :=
  before[i]? = some none ∧ after[i]? = some (some p) ∧ after.length = before.length ∧
    ∀ j : Nat, j ≠ i → after[j]? = before[j]?

/-! # Theorems -/

/-! ## Winner detection: the first complete line -/

theorem lineWinner_eq_some (board : Board) (line : Nat × Nat × Nat) (p : Player) :
    lineWinner board line = some p ↔ lineComplete board line p := by
  unfold lineWinner lineComplete
  constructor
  · intro h
    split at h
    · rename_i q hq
      split at h
      · rename_i hc
        simp only [Option.some.injEq] at h
        subst h
        exact ⟨hq, by rw [← hc.1, hq], by rw [← hc.2, hq]⟩
      · simp at h
    · simp at h
  · rintro ⟨h1, h2, h3⟩
    simp [h1, h2, h3]

theorem lineWinner_eq_none (board : Board) (line : Nat × Nat × Nat) :
    lineWinner board line = none ↔ ∀ q, ¬ lineComplete board line q := by
  constructor
  · intro h q hq
    rw [(lineWinner_eq_some board line q).mpr hq] at h
    simp at h
  · intro h
    cases hw : lineWinner board line with
    | none => rfl
    | some q => exact absurd ((lineWinner_eq_some board line q).mp hw) (h q)

theorem scanLines_eq_some (board : Board) (p : Player) (lines : List (Nat × Nat × Nat)) :
    scanLines board lines = some p ↔
      ∃ (k : Nat) (line : Nat × Nat × Nat), lines[k]? = some line ∧ lineComplete board line p ∧
        ∀ (j : Nat) (line1 : Nat × Nat × Nat), j < k → lines[j]? = some line1 →
          ∀ q, ¬ lineComplete board line1 q := by
  induction lines with
  | nil => simp [scanLines]
  | cons l rest ih =>
    unfold scanLines
    cases hw : lineWinner board l with
    | some q =>
      simp only [Option.some.injEq]
      constructor
      · intro h
        subst h
        exact ⟨0, l, by simp, (lineWinner_eq_some board l q).mp hw, fun j _ hj => absurd hj (by omega)⟩
      · rintro ⟨k, line, hk, hc, hfirst⟩
        cases k with
        | zero =>
          simp only [List.getElem?_cons_zero, Option.some.injEq] at hk
          subst hk
          have := (lineWinner_eq_some board l p).mpr hc
          rw [hw] at this
          simpa using this
        | succ k =>
          exact absurd ((lineWinner_eq_some board l q).mp hw)
            (hfirst 0 l (by omega) (by simp) q)
    | none =>
      simp only
      rw [ih]
      constructor
      · rintro ⟨k, line, hk, hc, hfirst⟩
        refine ⟨k + 1, line, by simpa using hk, hc, ?_⟩
        intro j line1 hj hget
        cases j with
        | zero =>
          simp only [List.getElem?_cons_zero, Option.some.injEq] at hget
          subst hget
          exact (lineWinner_eq_none board l).mp hw
        | succ j => exact hfirst j line1 (by omega) (by simpa using hget)
      · rintro ⟨k, line, hk, hc, hfirst⟩
        cases k with
        | zero =>
          simp only [List.getElem?_cons_zero, Option.some.injEq] at hk
          subst hk
          exact absurd hc ((lineWinner_eq_none board l).mp hw p)
        | succ k =>
          refine ⟨k, line, by simpa using hk, hc, ?_⟩
          intro j line1 hj hget
          exact hfirst (j + 1) line1 (by omega) (by simpa using hget)

theorem scanLines_eq_none (board : Board) (lines : List (Nat × Nat × Nat)) :
    scanLines board lines = none ↔ ∀ line ∈ lines, ∀ q, ¬ lineComplete board line q := by
  induction lines with
  | nil => simp [scanLines]
  | cons l rest ih =>
    unfold scanLines
    cases hw : lineWinner board l with
    | some q =>
      simp only [List.mem_cons, forall_eq_or_imp, false_iff, not_and, reduceCtorEq]
      intro h
      exact absurd ((lineWinner_eq_some board l q).mp hw) (h q)
    | none =>
      simp only [List.mem_cons, forall_eq_or_imp]
      rw [ih]
      exact ⟨fun h => ⟨(lineWinner_eq_none board l).mp hw, h⟩, fun h => h.2⟩

/-- C1: both winner evaluators scan the eight lines in the order of the script
and return the mark of the first line whose three cells hold the same mark; they
return no winner exactly when no line is complete. -/
theorem checkWinner_first_complete_line (board : Board) (g : Game) :
    winningConditions = [(0, 1, 2), (3, 4, 5), (6, 7, 8), (0, 3, 6), (1, 4, 7), (2, 5, 8),
      (0, 4, 8), (2, 4, 6)] ∧
    checkWinner g = checkWinnerForMinimax g.gameState ∧
    (∀ p, checkWinnerForMinimax board = some p ↔
      ∃ (k : Nat) (line : Nat × Nat × Nat), winningConditions[k]? = some line ∧ lineComplete board line p ∧
        ∀ (j : Nat) (line1 : Nat × Nat × Nat), j < k → winningConditions[j]? = some line1 →
          ∀ q, ¬ lineComplete board line1 q) ∧
    (checkWinnerForMinimax board = none ↔
      ∀ line ∈ winningConditions, ∀ q, ¬ lineComplete board line q) :=
  ⟨rfl, rfl, fun p => scanLines_eq_some board p winningConditions,
    scanLines_eq_none board winningConditions⟩

/-! ## Move application -/

theorem includesEmpty_eq_true (board : Board) :
    includesEmpty board = true ↔ ∃ i : Nat, board[i]? = some none := by
  unfold includesEmpty
  rw [List.contains_iff_exists_mem_beq]
  simp only [beq_iff_eq, exists_eq_right']
  exact List.mem_iff_getElem?

theorem includesEmpty_eq_false (board : Board) :
    includesEmpty board = false ↔ ∀ i : Nat, board[i]? ≠ some none := by
  rw [← Bool.not_eq_true, includesEmpty_eq_true]
  simp

/-- C7: a click on an occupied cell, on an index outside 0..8 or in a finished
game is rejected: the handler returns the game unchanged (board, current player,
active flag and both score counters) and schedules nothing. -/
theorem handleCellClick_rejected (g : Game) (i : Int) (hlen : g.gameState.length = 9)
    (h : (∃ p, readCell g.gameState i = some (some p)) ∨ i < 0 ∨ 8 < i ∨
      g.gameActive = false) :
    handleCellClick g i = (g, false) ∧
    (handleCellClick g i).1.gameState = g.gameState ∧
    (handleCellClick g i).1.currentPlayer = g.currentPlayer ∧
    (handleCellClick g i).1.gameActive = g.gameActive ∧
    (handleCellClick g i).1.scoreX = g.scoreX ∧
    (handleCellClick g i).1.scoreO = g.scoreO := by
  have key : handleCellClick g i = (g, false) := by
    unfold handleCellClick
    rw [if_pos]
    rcases h with ⟨p, hp⟩ | hneg | hbig | hfin
    · left; rw [hp]; simp
    · left; unfold readCell; rw [if_neg (by omega)]; simp
    · left
      unfold readCell
      rw [if_pos (by omega), List.getElem?_eq_none (by omega)]
      simp
    · right; exact hfin
  rw [key]
  simp

theorem handleCellClick_rejected_witness :
    handleCellClick (gameOn [some .X, none, none, none, none, none, none, none, none] .O) 0 =
      (gameOn [some .X, none, none, none, none, none, none, none, none] .O, false) :=
  (handleCellClick_rejected _ 0 (by decide) (Or.inl ⟨.X, by decide⟩)).1

/-- C8 (as the code has it): `makeMove` checks no turn.  For an index `i` of
the board and whatever the current player is, the board after `makeMove g i p`
is the old board with cell `i` set to the mark `p`; the turn is respected by the
caller, `handleCellClick`, which either rejects the click or calls `makeMove`
with the current player at an index of the board. -/
theorem makeMove_checks_no_turn (g : Game) (i : Nat) (p : Player) (k : Int)
    (hi : i < g.gameState.length) :
    (makeMove g i p).gameState = g.gameState.set i (some p) ∧
    (makeMove g i p).gameState[i]? = some (some p) ∧
    (handleCellClick g k = (g, false) ∨
      ((handleCellClick g k).1 = makeMove g k.toNat g.currentPlayer ∧
        k.toNat < g.gameState.length)) := by
  have hboard : (makeMove g i p).gameState = g.gameState.set i (some p) := by
    unfold makeMove
    simp only
    split
    · unfold handleWin; split <;> rfl
    · split <;> rfl
  refine ⟨hboard, ?_, ?_⟩
  · rw [hboard, List.getElem?_set_self hi]
  · unfold handleCellClick
    split
    · left; rfl
    · rename_i h
      right
      refine ⟨rfl, ?_⟩
      have hcell : readCell g.gameState k = some none := by
        by_contra hc
        exact h (Or.inl hc)
      unfold readCell at hcell
      split at hcell
      · by_contra hlt
        rw [List.getElem?_eq_none (by omega)] at hcell
        cases hcell
      · cases hcell

theorem makeMove_checks_no_turn_witness :
    (makeMove initialGame 0 .O).gameState = initialGame.gameState.set 0 (some .O) ∧
    (makeMove initialGame 0 .O).gameState[0]? = some (some .O) ∧
    (handleCellClick initialGame 4 = (initialGame, false) ∨
      ((handleCellClick initialGame 4).1 = makeMove initialGame (4 : Int).toNat
          initialGame.currentPlayer ∧
        (4 : Int).toNat < initialGame.gameState.length)) :=
  makeMove_checks_no_turn initialGame 0 .O 4 (by decide)

/-- C8 (as the spec states it) fails: in the initial, in-progress game with X
to move, `makeMove(0, O)` is carried out and changes the board. -/
theorem makeMove_wrong_player_changes_board :
    initialGame.gameActive = true ∧ Player.O ≠ initialGame.currentPlayer ∧
    (makeMove initialGame 0 .O).gameState =
      [some .O, none, none, none, none, none, none, none, none] ∧
    (makeMove initialGame 0 .O).gameState ≠ initialGame.gameState := by
  decide

/-- C9: in an in-progress game, when placing the current player's mark on the
empty cell `i` makes the evaluator report a winner `w`, the move ends the game:
the game is inactive, cell `i` holds the mark, the counter of `w` is one higher,
the other counter is unchanged and the current player is not flipped.  Whether
the board is full afterwards plays no role. -/
theorem makeMove_win (g : Game) (i : Nat) (w : Player)
    (_hactive : g.gameActive = true) (hempty : g.gameState[i]? = some none)
    (hwin : checkWinnerForMinimax (g.gameState.set i (some g.currentPlayer)) = some w) :
    (makeMove g i g.currentPlayer).gameActive = false ∧
    (makeMove g i g.currentPlayer).gameState[i]? = some (some g.currentPlayer) ∧
    (makeMove g i g.currentPlayer).currentPlayer = g.currentPlayer ∧
    (w = .X → (makeMove g i g.currentPlayer).scoreX = g.scoreX + 1 ∧
      (makeMove g i g.currentPlayer).scoreO = g.scoreO) ∧
    (w = .O → (makeMove g i g.currentPlayer).scoreO = g.scoreO + 1 ∧
      (makeMove g i g.currentPlayer).scoreX = g.scoreX) := by
  have hlt : i < g.gameState.length := by
    rcases Nat.lt_or_ge i g.gameState.length with h | h
    · exact h
    · rw [List.getElem?_eq_none h] at hempty
      simp at hempty
  have hm : makeMove g i g.currentPlayer =
      handleWin { g with gameState := g.gameState.set i (some g.currentPlayer) } w := by
    unfold makeMove
    simp only
    have : checkWinner { g with gameState := g.gameState.set i (some g.currentPlayer) } =
        some w := hwin
    rw [this]
  rw [hm]
  cases w with
  | X => simp [handleWin, hlt]
  | O => simp [handleWin, hlt]

theorem makeMove_win_witness :
    (makeMove (gameOn [some .X, some .X, none, none, some .O, some .O, none, none, none] .X)
      2 .X).gameActive = false ∧
    (makeMove (gameOn [some .X, some .X, none, none, some .O, some .O, none, none, none] .X)
      2 .X).scoreX = 1 :=
  have h := makeMove_win
    (gameOn [some .X, some .X, none, none, some .O, some .O, none, none, none] .X) 2 .X
    (by decide) (by decide) (by decide)
  ⟨h.1, (h.2.2.2.1 rfl).1⟩

/-- C10: in an in-progress game, a move of the current player on an empty cell
that leaves no cell empty and completes no line ends the game as a draw: the game is inactive,
the evaluator reports no winner on the final board and both score counters and
the current player are as before. -/
theorem makeMove_draw (g : Game) (i : Nat)
    (_hactive : g.gameActive = true) (_hempty : g.gameState[i]? = some none)
    (hfull : includesEmpty (g.gameState.set i (some g.currentPlayer)) = false)
    (hnone : checkWinnerForMinimax (g.gameState.set i (some g.currentPlayer)) = none) :
    (makeMove g i g.currentPlayer).gameActive = false ∧
    (makeMove g i g.currentPlayer).gameState = g.gameState.set i (some g.currentPlayer) ∧
    includesEmpty (makeMove g i g.currentPlayer).gameState = false ∧
    checkWinner (makeMove g i g.currentPlayer) = none ∧
    (makeMove g i g.currentPlayer).scoreX = g.scoreX ∧
    (makeMove g i g.currentPlayer).scoreO = g.scoreO := by
  have hm : makeMove g i g.currentPlayer =
      handleDraw { g with gameState := g.gameState.set i (some g.currentPlayer) } := by
    unfold makeMove
    simp only
    have : checkWinner { g with gameState := g.gameState.set i (some g.currentPlayer) } =
        none := hnone
    rw [this]
    simp [hfull]
  rw [hm]
  refine ⟨rfl, rfl, hfull, hnone, rfl, rfl⟩

theorem makeMove_draw_witness :
    (makeMove (gameOn [some .X, some .O, some .X, some .X, some .O, some .O, some .O, some .X,
      none] .X) 8 .X).gameActive = false ∧
    (makeMove (gameOn [some .X, some .O, some .X, some .X, some .O, some .O, some .O, some .X,
      none] .X) 8 .X).gameState =
      [some .X, some .O, some .X, some .X, some .O, some .O, some .O, some .X, some .X] :=
  have h := makeMove_draw
    (gameOn [some .X, some .O, some .X, some .X, some .O, some .O, some .O, some .X, none] .X)
    8 (by decide) (by decide) (by decide) (by decide)
  ⟨h.1, h.2.1⟩

/-! ## Order on the scores -/

theorem score_le_iff (a b : Score) : a ≤ b ↔ Score.gt a b = false := Iff.rfl

theorem score_lt_iff (a b : Score) : a < b ↔ Score.gt b a = true := Iff.rfl

theorem score_max_eq (a b : Score) : Score.max a b = max a b := rfl

theorem score_min_eq (a b : Score) : Score.min a b = min a b := rfl

theorem score_fin_le_fin (a b : Int) : Score.fin a ≤ Score.fin b ↔ a ≤ b := by
  rw [score_le_iff]
  simp [Score.gt]

theorem score_fin_lt_fin (a b : Int) : Score.fin a < Score.fin b ↔ a < b := by
  rw [score_lt_iff]
  simp [Score.gt]

theorem score_negInf_le (a : Score) : Score.negInf ≤ a := by
  rw [score_le_iff]
  cases a <;> rfl

theorem score_le_posInf (a : Score) : a ≤ Score.posInf := by
  rw [score_le_iff]
  cases a <;> rfl

theorem score_le_maximum {l : List Score} {s : Score} (h : s ∈ l) : s ≤ Score.maximum l := by
  induction l with
  | nil => cases h
  | cons x rest ih =>
    unfold Score.maximum
    rw [score_max_eq]
    rcases List.mem_cons.mp h with rfl | h
    · exact le_max_left _ _
    · exact le_trans (ih h) (le_max_right _ _)

theorem score_minimum_le {l : List Score} {s : Score} (h : s ∈ l) : Score.minimum l ≤ s := by
  induction l with
  | nil => cases h
  | cons x rest ih =>
    unfold Score.minimum
    rw [score_min_eq]
    rcases List.mem_cons.mp h with rfl | h
    · exact min_le_left _ _
    · exact le_trans (min_le_right _ _) (ih h)

theorem score_maximum_mem {l : List Score} (h : l ≠ []) : Score.maximum l ∈ l := by
  induction l with
  | nil => exact absurd rfl h
  | cons x rest ih =>
    unfold Score.maximum
    rw [score_max_eq]
    cases rest with
    | nil =>
      have : max x (Score.maximum []) = x := max_eq_left (score_negInf_le x)
      rw [this]
      exact List.mem_cons_self _ _
    | cons y rest1 =>
      rcases max_choice x (Score.maximum (y :: rest1)) with h1 | h1
      · rw [h1]; exact List.mem_cons_self _ _
      · rw [h1]; exact List.mem_cons_of_mem _ (ih (by simp))

theorem score_minimum_mem {l : List Score} (h : l ≠ []) : Score.minimum l ∈ l := by
  induction l with
  | nil => exact absurd rfl h
  | cons x rest ih =>
    unfold Score.minimum
    rw [score_min_eq]
    cases rest with
    | nil =>
      have : min x (Score.minimum []) = x := min_eq_left (score_le_posInf x)
      rw [this]
      exact List.mem_cons_self _ _
    | cons y rest1 =>
      rcases min_choice x (Score.minimum (y :: rest1)) with h1 | h1
      · rw [h1]; exact List.mem_cons_self _ _
      · rw [h1]; exact List.mem_cons_of_mem _ (ih (by simp))

/-! ## The search against its reference recursion -/

theorem set_restore (board : Board) (i : Nat) (x : Cell) (h : board[i]? = some none) :
    (board.set i x).set i none = board := by
  rw [List.set_set]
  apply List.ext_getElem?
  intro j
  rw [List.getElem?_set]
  split
  · rename_i hij
    subst hij
    rw [h]
    split
    · rfl
    · rename_i hlt
      rw [List.getElem?_eq_none (by omega)] at h
      cases h
  · rfl

theorem lt_length_of_empty {board : Board} {i : Nat} (h : board[i]? = some none) :
    i < board.length := by
  rcases Nat.lt_or_ge i board.length with hlt | hge
  · exact hlt
  · rw [List.getElem?_eq_none hge] at h
    cases h

theorem count_set_mark (board : Board) (i : Nat) (p : Player) (h : board[i]? = some none) :
    (board.set i (some p)).count none + 1 = board.count none := by
  have hlt := lt_length_of_empty h
  have hget : board[i] = none := by
    rw [List.getElem?_eq_getElem hlt] at h
    exact Option.some.inj h
  rw [List.count_set _ _ _ _ hlt, hget]
  have hpos : 0 < board.count none := by
    rw [List.count_pos_iff]
    rw [← hget]
    exact List.getElem_mem hlt
  simp
  omega

theorem mem_emptyCellsOf (board : Board) (i : Nat) :
    i ∈ emptyCellsOf board ↔ board[i]? = some none := by
  unfold emptyCellsOf
  simp only [List.mem_filter, List.mem_range, decide_eq_true_eq]
  exact ⟨fun h => h.2, fun h => ⟨lt_length_of_empty h, h⟩⟩

theorem emptyCellsOf_eq_filter_range (board : Board) (hlen : board.length = 9) :
    emptyCellsOf board = (List.range 9).filter (fun i => board[i]? = some none) := by
  unfold emptyCellsOf
  rw [hlen]

theorem foldl_max_eq (q : Nat → Prop) [DecidablePred q] (val : Nat → Score) (l : List Nat)
    (init : Score) :
    l.foldl (fun acc i => if q i then Score.max (val i) acc else acc) init =
      max (Score.maximum ((l.filter (fun i => decide (q i))).map val)) init := by
  induction l generalizing init with
  | nil => exact (max_eq_right (score_negInf_le init)).symm
  | cons i rest ih =>
    rw [List.foldl_cons, ih]
    by_cases hq : q i
    · rw [if_pos hq, List.filter_cons_of_pos (by simpa using hq), List.map_cons]
      show _ = max (Score.max _ _) _
      rw [score_max_eq, score_max_eq, ← max_assoc, max_comm (Score.maximum _) (val i)]
    · rw [if_neg hq, List.filter_cons_of_neg (by simpa using hq)]

theorem foldl_min_eq (q : Nat → Prop) [DecidablePred q] (val : Nat → Score) (l : List Nat)
    (init : Score) :
    l.foldl (fun acc i => if q i then Score.min (val i) acc else acc) init =
      min (Score.minimum ((l.filter (fun i => decide (q i))).map val)) init := by
  induction l generalizing init with
  | nil => exact (min_eq_right (score_le_posInf init)).symm
  | cons i rest ih =>
    rw [List.foldl_cons, ih]
    by_cases hq : q i
    · rw [if_pos hq, List.filter_cons_of_pos (by simpa using hq), List.map_cons]
      show _ = min (Score.min _ _) _
      rw [score_min_eq, score_min_eq, ← min_assoc, min_comm (Score.minimum _) (val i)]
    · rw [if_neg hq, List.filter_cons_of_neg (by simpa using hq)]

theorem minimaxLoop_eq (recur : Board → Option (Score × Board)) (mark : Player)
    (pick : Score → Score → Score) (val : Nat → Score) (board : Board)
    (hrec : ∀ i, board[i]? = some none →
      recur (board.set i (some mark)) = some (val i, board.set i (some mark)))
    (l : List Nat) (best : Score) :
    minimaxLoop recur mark pick l best board =
      some (l.foldl (fun acc i => if board[i]? = some none then pick (val i) acc else acc) best,
        board) := by
  induction l generalizing best with
  | nil => rfl
  | cons i rest ih =>
    unfold minimaxLoop
    by_cases hi : board[i]? = some none
    · rw [if_pos hi, hrec i hi]
      simp only
      rw [set_restore board i _ hi, ih, List.foldl_cons, if_pos hi]
    · rw [if_neg hi, ih, List.foldl_cons, if_neg hi]

theorem minimax_eq_minimaxRef (ai : Player) (n : Nat) :
    ∀ (board : Board) (depth : Int) (isMaximizing : Bool),
      board.length = 9 → board.count none ≤ n →
      minimax ai (n + 1) board depth isMaximizing =
        some (minimaxRef ai n board depth isMaximizing, board) := by
  induction n with
  | zero =>
    intro board depth isMaximizing hlen hcount
    unfold minimax minimaxRef
    simp only
    by_cases h1 : checkWinnerForMinimax board = some ai
    · rw [if_pos h1, if_pos h1]
    · rw [if_neg h1, if_neg h1]
      by_cases h2 : checkWinnerForMinimax board = some ai.other
      · rw [if_pos h2, if_pos h2]
      · rw [if_neg h2, if_neg h2]
        have hfull : includesEmpty board = false := by
          rw [includesEmpty_eq_false]
          intro i hi
          have := count_set_mark board i .X hi
          omega
        simp [hfull]
  | succ k ih =>
    intro board depth isMaximizing hlen hcount
    unfold minimax minimaxRef
    simp only
    by_cases h1 : checkWinnerForMinimax board = some ai
    · rw [if_pos h1, if_pos h1]
    · rw [if_neg h1, if_neg h1]
      by_cases h2 : checkWinnerForMinimax board = some ai.other
      · rw [if_pos h2, if_pos h2]
      · rw [if_neg h2, if_neg h2]
        cases h3 : includesEmpty board with
        | false => simp
        | true =>
          simp only [Bool.not_true, Bool.false_eq_true, if_false]
          have hchild : ∀ (mark : Player) (m : Bool) (i : Nat), board[i]? = some none →
              minimax ai (k + 1) (board.set i (some mark)) (depth + 1) m =
                some (minimaxRef ai k (board.set i (some mark)) (depth + 1) m,
                  board.set i (some mark)) := by
            intro mark m i hi
            apply ih
            · rw [List.length_set]; exact hlen
            · have := count_set_mark board i mark hi
              omega
          cases isMaximizing with
          | true =>
            simp only [if_true]
            rw [minimaxLoop_eq _ ai Score.max
              (fun i => minimaxRef ai k (board.set i (some ai)) (depth + 1) false) board
              (hchild ai false), foldl_max_eq, emptyCellsOf_eq_filter_range board hlen,
              max_eq_left (score_negInf_le _)]
            simp
          | false =>
            simp only [Bool.false_eq_true, if_false]
            rw [minimaxLoop_eq _ ai.other Score.min
              (fun i => minimaxRef ai k (board.set i (some ai.other)) (depth + 1) true) board
              (hchild ai.other true), foldl_min_eq, emptyCellsOf_eq_filter_range board hlen,
              min_eq_left (score_le_posInf _)]
            simp

theorem minimaxRef_budget (ai : Player) (n : Nat) :
    ∀ (board : Board) (depth : Int) (isMaximizing : Bool), board.count none ≤ n →
      minimaxRef ai n board depth isMaximizing =
        minimaxRef ai (board.count none) board depth isMaximizing := by
  induction n with
  | zero =>
    intro board depth isMaximizing hcount
    have : board.count none = 0 := by omega
    rw [this]
  | succ k ih =>
    intro board depth isMaximizing hcount
    cases hc : board.count none with
    | zero =>
      have hfull : includesEmpty board = false := by
        rw [includesEmpty_eq_false]
        intro i hi
        have := count_set_mark board i .X hi
        omega
      unfold minimaxRef
      simp [hfull]
    | succ c =>
      have hchild : ∀ (mark : Player) (m : Bool), ∀ i ∈ emptyCellsOf board,
          minimaxRef ai k (board.set i (some mark)) (depth + 1) m =
            minimaxRef ai c (board.set i (some mark)) (depth + 1) m := by
        intro mark m i hi
        have hcs := count_set_mark board i mark ((mem_emptyCellsOf board i).mp hi)
        have hcc : (board.set i (some mark)).count none = c := by omega
        rw [ih _ _ _ (by omega), hcc]
      unfold minimaxRef
      simp only
      rw [List.map_congr_left (hchild ai false), List.map_congr_left (hchild ai.other true)]

theorem minimaxReference_unfold (ai : Player) (board : Board) (depth : Int)
    (isMaximizing : Bool) :
    minimaxReference ai board depth isMaximizing =
      if checkWinnerForMinimax board = some ai then .fin (10 - depth)
      else if checkWinnerForMinimax board = some ai.other then .fin (depth - 10)
      else if includesEmpty board = false then .fin 0
      else if isMaximizing then
        Score.maximum ((emptyCellsOf board).map fun i =>
          minimaxReference ai (board.set i (some ai)) (depth + 1) false)
      else
        Score.minimum ((emptyCellsOf board).map fun i =>
          minimaxReference ai (board.set i (some ai.other)) (depth + 1) true) := by
  unfold minimaxReference
  cases hc : board.count none with
  | zero =>
    have hfull : includesEmpty board = false := by
      rw [includesEmpty_eq_false]
      intro i hi
      have := count_set_mark board i .X hi
      omega
    unfold minimaxRef
    simp [hfull]
  | succ c =>
    have hchild : ∀ (mark : Player) (m : Bool), ∀ i ∈ emptyCellsOf board,
        minimaxRef ai c (board.set i (some mark)) (depth + 1) m =
          minimaxRef ai ((board.set i (some mark)).count none) (board.set i (some mark))
            (depth + 1) m := by
      intro mark m i hi
      have hcs := count_set_mark board i mark ((mem_emptyCellsOf board i).mp hi)
      have hcc : (board.set i (some mark)).count none = c := by omega
      rw [hcc]
    rw [minimaxRef]
    rw [List.map_congr_left (hchild ai false), List.map_congr_left (hchild ai.other true)]

theorem minimax_eq_minimaxReference (ai : Player) (fuel : Nat) (board : Board) (depth : Int)
    (isMaximizing : Bool) (hlen : board.length = 9) (hfuel : board.count none < fuel) :
    minimax ai fuel board depth isMaximizing =
      some (minimaxReference ai board depth isMaximizing, board) := by
  obtain ⟨n, rfl⟩ : ∃ n, fuel = n + 1 := ⟨fuel - 1, by omega⟩
  rw [minimax_eq_minimaxRef ai n board depth isMaximizing hlen (by omega),
    minimaxRef_budget ai n board depth isMaximizing (by omega)]
  rfl

/-- C6: on a nine-cell board, with any fuel above the number of empty cells,
`minimax` returns the value of the reference recursion (and the board it was
given), and that reference value is: `10 - depth` if the evaluator reports the
computer, `depth - 10` if it reports the opponent, `0` if there is no winner and
no empty cell, and otherwise the maximum (maximizing ply, computer's mark) or
minimum (minimizing ply, opponent's mark) over the empty cells of the reference
value of the board with that cell filled, at `depth + 1` with the ply flipped. -/
theorem minimax_refines_reference (ai : Player) (fuel : Nat) (board : Board) (depth : Int)
    (isMaximizing : Bool) (hlen : board.length = 9) (hfuel : board.count none < fuel) :
    minimax ai fuel board depth isMaximizing =
      some (minimaxReference ai board depth isMaximizing, board) ∧
    minimaxReference ai board depth isMaximizing =
      (if checkWinnerForMinimax board = some ai then .fin (10 - depth)
      else if checkWinnerForMinimax board = some ai.other then .fin (depth - 10)
      else if includesEmpty board = false then .fin 0
      else if isMaximizing then
        Score.maximum ((emptyCellsOf board).map fun i =>
          minimaxReference ai (board.set i (some ai)) (depth + 1) false)
      else
        Score.minimum ((emptyCellsOf board).map fun i =>
          minimaxReference ai (board.set i (some ai.other)) (depth + 1) true)) :=
  ⟨minimax_eq_minimaxReference ai fuel board depth isMaximizing hlen hfuel,
    minimaxReference_unfold ai board depth isMaximizing⟩

theorem minimax_refines_reference_witness :
    minimax .O 10 midgameBoard 0 true =
      some (minimaxReference .O midgameBoard 0 true, midgameBoard) :=
  (minimax_refines_reference .O 10 midgameBoard 0 true (by decide) (by decide)).1

/-! ## The move chosen by `findBestMove` -/

theorem emptyCellsOf_ne_nil {board : Board} (h : includesEmpty board = true) :
    emptyCellsOf board ≠ [] := by
  obtain ⟨i, hi⟩ := (includesEmpty_eq_true board).mp h
  intro hnil
  have := (mem_emptyCellsOf board i).mpr hi
  rw [hnil] at this
  cases this

theorem minimaxRef_finite (ai : Player) (n : Nat) :
    ∀ (board : Board) (depth : Int) (isMaximizing : Bool), board.count none ≤ n →
      ∃ v, minimaxRef ai n board depth isMaximizing = .fin v := by
  induction n with
  | zero =>
    intro board depth isMaximizing hcount
    unfold minimaxRef
    simp only
    split
    · exact ⟨_, rfl⟩
    · split
      · exact ⟨_, rfl⟩
      · split
        · exact ⟨_, rfl⟩
        · rename_i h3
          obtain ⟨i, hi⟩ := (includesEmpty_eq_true board).mp (by simpa using h3)
          have := count_set_mark board i .X hi
          omega
  | succ k ih =>
    intro board depth isMaximizing hcount
    have hchild : ∀ (mark : Player) (m : Bool), ∀ s ∈ (emptyCellsOf board).map (fun i =>
        minimaxRef ai k (board.set i (some mark)) (depth + 1) m), ∃ v, s = .fin v := by
      intro mark m s hs
      obtain ⟨i, hi, rfl⟩ := List.mem_map.mp hs
      have := count_set_mark board i mark ((mem_emptyCellsOf board i).mp hi)
      exact ih _ _ _ (by omega)
    unfold minimaxRef
    simp only
    split
    · exact ⟨_, rfl⟩
    · split
      · exact ⟨_, rfl⟩
      · split
        · exact ⟨_, rfl⟩
        · rename_i h3
          have hne := @emptyCellsOf_ne_nil board (by simpa using h3)
          split
          · exact hchild ai false _ (score_maximum_mem (by simpa using hne))
          · exact hchild ai.other true _ (score_minimum_mem (by simpa using hne))

theorem minimaxReference_finite (ai : Player) (board : Board) (depth : Int)
    (isMaximizing : Bool) : ∃ v, minimaxReference ai board depth isMaximizing = .fin v :=
  minimaxRef_finite ai _ board depth isMaximizing (Nat.le_refl _)

theorem count_none_le_length (board : Board) : board.count none ≤ board.length :=
  List.count_le_length _ _

theorem moveScore_eq (ai : Player) (board : Board) (i : Nat) (hlen : board.length = 9) :
    moveScore ai board i = some (minimaxReference ai (board.set i (some ai)) 0 false) := by
  unfold moveScore
  rw [minimax_eq_minimaxReference ai searchFuel _ 0 false (by rw [List.length_set]; exact hlen)
    (by
      have := count_none_le_length (board.set i (some ai))
      rw [List.length_set, hlen] at this
      unfold searchFuel
      omega)]
  rfl

theorem findBestMoveLoop_eq (ai : Player) (fuel : Nat) (val : Nat → Score) (board : Board)
    (hrec : ∀ i, board[i]? = some none →
      minimax ai fuel (board.set i (some ai)) 0 false = some (val i, board.set i (some ai)))
    (l : List Nat) (bestScore : Score) (bestMove : Option Nat) :
    findBestMoveLoop ai fuel l bestScore bestMove board =
      some ((l.foldl (fun (acc : Score × Option Nat) i =>
        if board[i]? = some none then
          (if Score.gt (val i) acc.1 = true then (val i, some i) else acc)
        else acc) (bestScore, bestMove)).2, board) := by
  induction l generalizing bestScore bestMove with
  | nil => rfl
  | cons i rest ih =>
    unfold findBestMoveLoop
    by_cases hi : board[i]? = some none
    · rw [if_pos hi, hrec i hi]
      simp only
      rw [set_restore board i _ hi, List.foldl_cons, if_pos hi]
      by_cases hg : Score.gt (val i) bestScore = true
      · rw [if_pos hg, ih, if_pos hg]
      · rw [if_neg hg, ih, if_neg hg]
    · rw [if_neg hi, ih, List.foldl_cons, if_neg hi]

theorem bestFold_spec (empty : Nat → Prop) [DecidablePred empty] (val : Nat → Score)
    (hfin : ∀ i, empty i → val i ≠ .negInf) (n : Nat) :
    let r := (List.range n).foldl (fun (acc : Score × Option Nat) i =>
      if empty i then (if Score.gt (val i) acc.1 = true then (val i, some i) else acc)
      else acc) (Score.negInf, none)
    (r.1 = .negInf ∧ r.2 = none ∧ ∀ j, j < n → ¬ empty j) ∨
    (∃ i, i < n ∧ r.2 = some i ∧ empty i ∧ r.1 = val i ∧
      (∀ j, j < n → empty j → val j ≤ val i) ∧ (∀ j, j < i → empty j → val j < val i)) := by
  induction n with
  | zero =>
    left
    exact ⟨rfl, rfl, fun j hj => absurd hj (by omega)⟩
  | succ n ih =>
    simp only [List.range_succ, List.foldl_append, List.foldl_cons, List.foldl_nil]
    simp only at ih
    generalize (List.range n).foldl (fun (acc : Score × Option Nat) i =>
      if empty i then (if Score.gt (val i) acc.1 = true then (val i, some i) else acc)
      else acc) (Score.negInf, none) = r at ih ⊢
    by_cases hn : empty n
    · rw [if_pos hn]
      by_cases hg : Score.gt (val n) r.1 = true
      · rw [if_pos hg]
        right
        refine ⟨n, by omega, rfl, hn, rfl, ?_, ?_⟩
        · intro j hj hej
          rcases Nat.lt_succ_iff_lt_or_eq.mp hj with hlt | heq
          · rcases ih with ⟨_, _, hno⟩ | ⟨i, _, _, _, hS, hle, _⟩
            · exact absurd hej (hno j hlt)
            · have h1 := hle j hlt hej
              rw [← hS] at h1
              exact le_of_lt (lt_of_le_of_lt h1 hg)
          · rw [heq]
        · intro j hj hej
          rcases ih with ⟨_, _, hno⟩ | ⟨i, _, _, _, hS, hle, _⟩
          · exact absurd hej (hno j hj)
          · have h1 := hle j hj hej
            rw [← hS] at h1
            exact lt_of_le_of_lt h1 hg
      · rw [if_neg hg]
        rcases ih with ⟨hS, _, _⟩ | ⟨i, hi, hM, hei, hS, hle, hlt⟩
        · exfalso
          rw [hS] at hg
          apply hfin n hn
          cases hv : val n with
          | negInf => rfl
          | fin v => rw [hv] at hg; exact absurd rfl hg
          | posInf => rw [hv] at hg; exact absurd rfl hg
        · right
          refine ⟨i, by omega, hM, hei, hS, ?_, hlt⟩
          intro j hj hej
          rcases Nat.lt_succ_iff_lt_or_eq.mp hj with hlt1 | heq
          · exact hle j hlt1 hej
          · rw [heq, ← hS]
            exact (score_le_iff _ _).mpr (by simpa using hg)
    · rw [if_neg hn]
      rcases ih with ⟨hS, hM, hno⟩ | ⟨i, hi, hM, hei, hS, hle, hlt⟩
      · left
        refine ⟨hS, hM, ?_⟩
        intro j hj
        rcases Nat.lt_succ_iff_lt_or_eq.mp hj with hlt1 | heq
        · exact hno j hlt1
        · rw [heq]; exact hn
      · right
        refine ⟨i, by omega, hM, hei, hS, ?_, hlt⟩
        intro j hj hej
        rcases Nat.lt_succ_iff_lt_or_eq.mp hj with hlt1 | heq
        · exact hle j hlt1 hej
        · rw [heq] at hej; exact absurd hej hn

theorem findBestMove_eq_fold (ai : Player) (board : Board) (hlen : board.length = 9) :
    findBestMove ai board =
      some (((List.range 9).foldl (fun (acc : Score × Option Nat) i =>
        if board[i]? = some none then
          (if Score.gt (minimaxReference ai (board.set i (some ai)) 0 false) acc.1 = true then
            (minimaxReference ai (board.set i (some ai)) 0 false, some i) else acc)
        else acc) (Score.negInf, none)).2, board) := by
  unfold findBestMove
  apply findBestMoveLoop_eq ai searchFuel
    (fun i => minimaxReference ai (board.set i (some ai)) 0 false) board
  intro i _
  apply minimax_eq_minimaxReference
  · rw [List.length_set]; exact hlen
  · have := count_none_le_length (board.set i (some ai))
    rw [List.length_set, hlen] at this
    unfold searchFuel
    omega

theorem findBestMove_spec (ai : Player) (board : Board) (hlen : board.length = 9) :
    (includesEmpty board = false → findBestMove ai board = some (none, board)) ∧
    (includesEmpty board = true →
      ∃ i v, findBestMove ai board = some (some i, board) ∧ board[i]? = some none ∧
        minimaxReference ai (board.set i (some ai)) 0 false = .fin v ∧
        ∀ j, board[j]? = some none →
          ∃ w, minimaxReference ai (board.set j (some ai)) 0 false = .fin w ∧ w ≤ v ∧
            (j < i → w < v)) := by
  rw [findBestMove_eq_fold ai board hlen]
  have hspec := bestFold_spec (fun i => board[i]? = some none)
    (fun i => minimaxReference ai (board.set i (some ai)) 0 false)
    (by
      intro i _ h
      obtain ⟨v, hv⟩ := minimaxReference_finite ai (board.set i (some ai)) 0 false
      simp only [hv] at h
      cases h) 9
  simp only at hspec
  generalize (List.range 9).foldl (fun (acc : Score × Option Nat) i =>
    if board[i]? = some none then
      (if Score.gt (minimaxReference ai (board.set i (some ai)) 0 false) acc.1 = true then
        (minimaxReference ai (board.set i (some ai)) 0 false, some i) else acc)
    else acc) (Score.negInf, none) = r at hspec ⊢
  constructor
  · intro hfull
    rcases hspec with ⟨_, hM, _⟩ | ⟨i, _, _, hei, _⟩
    · rw [hM]
    · exact absurd hei ((includesEmpty_eq_false board).mp hfull i)
  · intro hsome
    obtain ⟨i0, hi0⟩ := (includesEmpty_eq_true board).mp hsome
    rcases hspec with ⟨_, _, hno⟩ | ⟨i, _, hM, hei, _, hle, hlt⟩
    · exact absurd hi0 (hno i0 (by have := lt_length_of_empty hi0; omega))
    · obtain ⟨v, hv⟩ := minimaxReference_finite ai (board.set i (some ai)) 0 false
      refine ⟨i, v, by rw [hM], hei, hv, ?_⟩
      intro j hj
      obtain ⟨w, hw⟩ := minimaxReference_finite ai (board.set j (some ai)) 0 false
      refine ⟨w, hw, ?_, ?_⟩
      · have := hle j (by have := lt_length_of_empty hj; omega) hj
        rw [hv, hw] at this
        exact (score_fin_le_fin w v).mp this
      · intro hji
        have := hlt j hji hj
        rw [hv, hw] at this
        exact (score_fin_lt_fin w v).mp this

/-- C4: on a nine-cell board without an empty cell `findBestMove` returns no
move; on one with an empty cell it returns an empty cell `i` whose score (the
`minimax` score of the board with the computer mark on `i`, depth `0`, opponent
to move) is a finite number `v`, no empty cell scores more than `v`, and every
empty cell with a lower index scores strictly less: `i` is the lowest index of
maximal score.  The board is returned as it was. -/
theorem findBestMove_lowest_maximal (ai : Player) (board : Board)
    (hlen : board.length = 9) :
    (includesEmpty board = false → findBestMove ai board = some (none, board)) ∧
    (includesEmpty board = true →
      ∃ i v, findBestMove ai board = some (some i, board) ∧ board[i]? = some none ∧
        moveScore ai board i = some (.fin v) ∧
        ∀ j, board[j]? = some none →
          ∃ w, moveScore ai board j = some (.fin w) ∧ w ≤ v ∧ (j < i → w < v)) := by
  refine ⟨(findBestMove_spec ai board hlen).1, fun h => ?_⟩
  obtain ⟨i, v, h1, h2, h3, h4⟩ := (findBestMove_spec ai board hlen).2 h
  refine ⟨i, v, h1, h2, by rw [moveScore_eq ai board i hlen, h3], ?_⟩
  intro j hj
  obtain ⟨w, hw, hle, hlt⟩ := h4 j hj
  exact ⟨w, by rw [moveScore_eq ai board j hlen, hw], hle, hlt⟩

theorem findBestMove_lowest_maximal_witness :
    ∃ i v, findBestMove .O midgameBoard = some (some i, midgameBoard) ∧
      midgameBoard[i]? = some none ∧
      moveScore .O midgameBoard i = some (.fin v) ∧
      ∀ j, midgameBoard[j]? = some none →
        ∃ w, moveScore .O midgameBoard j = some (.fin w) ∧ w ≤ v ∧ (j < i → w < v) :=
  (findBestMove_lowest_maximal .O midgameBoard (by decide)).2 (by decide)

/-! ## The search returns -/

theorem minimax_total (ai : Player) (board : Board) (depth : Int) (isMaximizing : Bool)
    (hlen : board.length = 9) :
    ∃ v, minimax ai searchFuel board depth isMaximizing = some (.fin v, board) := by
  obtain ⟨v, hv⟩ := minimaxReference_finite ai board depth isMaximizing
  refine ⟨v, ?_⟩
  rw [minimax_eq_minimaxReference ai searchFuel board depth isMaximizing hlen
    (by
      have := count_none_le_length board
      unfold searchFuel
      omega), hv]

theorem findBestMove_total (ai : Player) (board : Board) (hlen : board.length = 9) :
    ∃ move, findBestMove ai board = some (move, board) := by
  rw [findBestMove_eq_fold ai board hlen]
  exact ⟨_, rfl⟩

/-! ## The sign of the search value -/

theorem Player.other_other (p : Player) : p.other.other = p := by
  cases p <;> rfl

theorem Player.other_ne (p : Player) : p.other ≠ p := by
  cases p <;> decide

theorem Player.eq_other_of_ne {p q : Player} (h : p ≠ q) : p = q.other := by
  cases p <;> cases q <;> first | rfl | exact absurd rfl h

theorem fin_zero_le_maximum (l : List Score) :
    Score.fin 0 ≤ Score.maximum l ↔ ∃ s ∈ l, Score.fin 0 ≤ s := by
  induction l with
  | nil => simp [Score.maximum, score_le_iff, Score.gt]
  | cons x rest ih =>
    unfold Score.maximum
    rw [score_max_eq, le_max_iff, ih]
    simp

theorem fin_zero_le_minimum (l : List Score) :
    Score.fin 0 ≤ Score.minimum l ↔ ∀ s ∈ l, Score.fin 0 ≤ s := by
  induction l with
  | nil => simp [Score.minimum, score_le_iff, Score.gt]
  | cons x rest ih =>
    unfold Score.minimum
    rw [score_min_eq, le_min_iff, ih]
    simp

theorem maximum_le_fin_zero (l : List Score) :
    Score.maximum l ≤ Score.fin 0 ↔ ∀ s ∈ l, s ≤ Score.fin 0 := by
  induction l with
  | nil => simp [Score.maximum, score_le_iff, Score.gt]
  | cons x rest ih =>
    unfold Score.maximum
    rw [score_max_eq, max_le_iff, ih]
    simp

theorem minimum_le_fin_zero (l : List Score) :
    Score.minimum l ≤ Score.fin 0 ↔ ∃ s ∈ l, s ≤ Score.fin 0 := by
  induction l with
  | nil => simp [Score.minimum, score_le_iff, Score.gt]
  | cons x rest ih =>
    unfold Score.minimum
    rw [score_min_eq, min_le_iff, ih]
    simp

theorem nonneg_iff_canDraw (ai : Player) (n : Nat) :
    ∀ (board : Board) (depth : Int) (isMaximizing : Bool), 0 ≤ depth → depth + n ≤ 9 →
      (Score.fin 0 ≤ minimaxRef ai n board depth isMaximizing ↔
        canDraw ai n board isMaximizing = true) := by
  induction n with
  | zero =>
    intro board depth isMaximizing h0 h9
    unfold minimaxRef canDraw
    by_cases h1 : checkWinnerForMinimax board = some ai
    · rw [if_pos h1, if_pos h1, score_fin_le_fin]
      simp only [iff_true]
      omega
    · rw [if_neg h1, if_neg h1]
      by_cases h2 : checkWinnerForMinimax board = some ai.other
      · rw [if_pos h2, if_pos h2, score_fin_le_fin]
        simp only [Bool.false_eq_true, iff_false]
        omega
      · rw [if_neg h2, if_neg h2]
        cases hfull : includesEmpty board with
        | false => simp [score_fin_le_fin]
        | true =>
          simp only [Bool.true_eq_false, if_false]
          cases isMaximizing <;> simp [score_le_iff, Score.gt]
  | succ k ih =>
    intro board depth isMaximizing h0 h9
    unfold minimaxRef canDraw
    by_cases h1 : checkWinnerForMinimax board = some ai
    · rw [if_pos h1, if_pos h1, score_fin_le_fin]
      simp only [iff_true]
      omega
    · rw [if_neg h1, if_neg h1]
      by_cases h2 : checkWinnerForMinimax board = some ai.other
      · rw [if_pos h2, if_pos h2, score_fin_le_fin]
        simp only [Bool.false_eq_true, iff_false]
        omega
      · rw [if_neg h2, if_neg h2]
        cases hfull : includesEmpty board with
        | false => simp [score_fin_le_fin]
        | true =>
          simp only [Bool.true_eq_false, if_false]
          cases isMaximizing with
          | true =>
            simp only [if_true, fin_zero_le_maximum, List.mem_map, List.any_eq_true]
            constructor
            · rintro ⟨s, ⟨i, hi, rfl⟩, hs⟩
              exact ⟨i, hi, (ih _ _ _ (by omega) (by omega)).mp hs⟩
            · rintro ⟨i, hi, hc⟩
              exact ⟨_, ⟨i, hi, rfl⟩, (ih _ _ _ (by omega) (by omega)).mpr hc⟩
          | false =>
            simp only [Bool.false_eq_true, if_false, fin_zero_le_minimum, List.mem_map,
              List.all_eq_true]
            constructor
            · intro h i hi
              exact (ih _ _ _ (by omega) (by omega)).mp (h _ ⟨i, hi, rfl⟩)
            · rintro h s ⟨i, hi, rfl⟩
              exact (ih _ _ _ (by omega) (by omega)).mpr (h i hi)

theorem nonpos_iff_canDraw (ai : Player) (n : Nat) :
    ∀ (board : Board) (depth : Int) (isMaximizing : Bool), 0 ≤ depth → depth + n ≤ 9 →
      (minimaxRef ai n board depth isMaximizing ≤ Score.fin 0 ↔
        canDraw ai.other n board (!isMaximizing) = true) := by
  induction n with
  | zero =>
    intro board depth isMaximizing h0 h9
    unfold minimaxRef canDraw
    rw [Player.other_other]
    by_cases h1 : checkWinnerForMinimax board = some ai
    · have h1o : checkWinnerForMinimax board ≠ some ai.other := by
        rw [h1]
        intro h
        exact Player.other_ne ai (Option.some.inj h).symm
      rw [if_pos h1, if_neg h1o, if_pos h1, score_fin_le_fin]
      simp only [Bool.false_eq_true, iff_false]
      omega
    · rw [if_neg h1, if_neg h1]
      by_cases h2 : checkWinnerForMinimax board = some ai.other
      · rw [if_pos h2, if_pos h2, score_fin_le_fin]
        simp only [iff_true]
        omega
      · rw [if_neg h2, if_neg h2]
        cases hfull : includesEmpty board with
        | false => simp [score_fin_le_fin]
        | true =>
          simp only [Bool.true_eq_false, if_false]
          cases isMaximizing <;> simp [score_le_iff, Score.gt]
  | succ k ih =>
    intro board depth isMaximizing h0 h9
    unfold minimaxRef canDraw
    rw [Player.other_other]
    by_cases h1 : checkWinnerForMinimax board = some ai
    · have h1o : checkWinnerForMinimax board ≠ some ai.other := by
        rw [h1]
        intro h
        exact Player.other_ne ai (Option.some.inj h).symm
      rw [if_pos h1, if_neg h1o, if_pos h1, score_fin_le_fin]
      simp only [Bool.false_eq_true, iff_false]
      omega
    · rw [if_neg h1, if_neg h1]
      by_cases h2 : checkWinnerForMinimax board = some ai.other
      · rw [if_pos h2, if_pos h2, score_fin_le_fin]
        simp only [iff_true]
        omega
      · rw [if_neg h2, if_neg h2]
        cases hfull : includesEmpty board with
        | false => simp [score_fin_le_fin]
        | true =>
          simp only [Bool.true_eq_false, if_false]
          cases isMaximizing with
          | true =>
            simp only [if_true, Bool.not_true, Bool.false_eq_true, if_false,
              maximum_le_fin_zero, List.mem_map, List.all_eq_true]
            constructor
            · intro h i hi
              exact (ih _ _ _ (by omega) (by omega)).mp (h _ ⟨i, hi, rfl⟩)
            · rintro h s ⟨i, hi, rfl⟩
              exact (ih _ _ _ (by omega) (by omega)).mpr (h i hi)
          | false =>
            simp only [Bool.false_eq_true, if_false, Bool.not_false, if_true,
              minimum_le_fin_zero, List.mem_map, List.any_eq_true]
            constructor
            · rintro ⟨s, ⟨i, hi, rfl⟩, hs⟩
              exact ⟨i, hi, (ih _ _ _ (by omega) (by omega)).mp hs⟩
            · rintro ⟨i, hi, hc⟩
              exact ⟨_, ⟨i, hi, rfl⟩, (ih _ _ _ (by omega) (by omega)).mpr hc⟩

/-! ## Soundness of the decision procedure -/

theorem pickLine_eq_lineWinner (board : Board) (a b c : Nat) (x y z : Cell)
    (ha : board[a]? = some x) (hb : board[b]? = some y) (hc : board[c]? = some z) :
    lineWinner board (a, b, c) = pickLine x y z := by
  unfold lineWinner pickLine
  simp only [ha, hb, hc]
  rcases x with _ | _ | _ <;> rcases y with _ | _ | _ <;> rcases z with _ | _ | _ <;>
    simp [line3]

theorem checkWinner_nine (c0 c1 c2 c3 c4 c5 c6 c7 c8 : Cell) :
    checkWinnerForMinimax [c0, c1, c2, c3, c4, c5, c6, c7, c8] =
      firstLine9 c0 c1 c2 c3 c4 c5 c6 c7 c8 := by
  unfold checkWinnerForMinimax winningConditions firstLine9
  simp only [scanLines]
  rw [pickLine_eq_lineWinner _ 0 1 2 c0 c1 c2 rfl rfl rfl,
    pickLine_eq_lineWinner _ 3 4 5 c3 c4 c5 rfl rfl rfl,
    pickLine_eq_lineWinner _ 6 7 8 c6 c7 c8 rfl rfl rfl,
    pickLine_eq_lineWinner _ 0 3 6 c0 c3 c6 rfl rfl rfl,
    pickLine_eq_lineWinner _ 1 4 7 c1 c4 c7 rfl rfl rfl,
    pickLine_eq_lineWinner _ 2 5 8 c2 c5 c8 rfl rfl rfl,
    pickLine_eq_lineWinner _ 0 4 8 c0 c4 c8 rfl rfl rfl,
    pickLine_eq_lineWinner _ 2 4 6 c2 c4 c6 rfl rfl rfl]

theorem hasEmpty_eq_includesEmpty (board : Board) : hasEmpty board = includesEmpty board := by
  unfold includesEmpty
  induction board with
  | nil => rfl
  | cons c rest ih =>
    cases c with
    | none => simp [hasEmpty]
    | some p => simp [hasEmpty, ih]

theorem sameMark_eq_true {p q : Player} (h : sameMark p q = true) : p = q := by
  cases p <;> cases q <;> first | rfl | cases h

theorem tryCell_false_eq_true {c : Cell} {k : Bool} (h : tryCell c k false = true) :
    c = none ∧ k = true := by
  cases c with
  | none => exact ⟨rfl, h⟩
  | some p => cases h

theorem tryCell_false_false (c : Cell) : tryCell c false false = false := by
  cases c <;> rfl

theorem tryCell_true_eq_true {c : Cell} {k : Bool} (h : tryCell c k true = true)
    (hc : c = none) : k = true := by
  subst hc
  exact h

theorem board_nine (board : Board) (h : board.length = 9) :
    ∃ c0 c1 c2 c3 c4 c5 c6 c7 c8, board = [c0, c1, c2, c3, c4, c5, c6, c7, c8] := by
  match board, h with
  | [c0, c1, c2, c3, c4, c5, c6, c7, c8], _ => exact ⟨c0, c1, c2, c3, c4, c5, c6, c7, c8, rfl⟩

theorem forall_empty_nine (c0 c1 c2 c3 c4 c5 c6 c7 c8 : Cell) (P : Nat → Prop)
    (h0 : c0 = none → P 0)    (h1 : c1 = none → P 1)
    (h2 : c2 = none → P 2)    (h3 : c3 = none → P 3)
    (h4 : c4 = none → P 4)    (h5 : c5 = none → P 5)
    (h6 : c6 = none → P 6)    (h7 : c7 = none → P 7)
    (h8 : c8 = none → P 8) :
    ∀ i : Nat, [c0, c1, c2, c3, c4, c5, c6, c7, c8][i]? = some none → P i := by
  intro i hi
  match i, hi with
  | 0, hi => exact h0 (by simpa using hi)
  | 1, hi => exact h1 (by simpa using hi)
  | 2, hi => exact h2 (by simpa using hi)
  | 3, hi => exact h3 (by simpa using hi)
  | 4, hi => exact h4 (by simpa using hi)
  | 5, hi => exact h5 (by simpa using hi)
  | 6, hi => exact h6 (by simpa using hi)
  | 7, hi => exact h7 (by simpa using hi)
  | 8, hi => exact h8 (by simpa using hi)
  | n + 9, hi => simp at hi

theorem drawCheck_zero (me opp : Player) (board : Board) (m : Bool) :
    drawCheck me opp 0 board m = false := by
  simp [drawCheck]

theorem drawCheck_sound (me : Player) (n : Nat) :
    ∀ (board : Board) (myTurn : Bool), board.length = 9 →
      drawCheck me me.other (n + 1) board myTurn = true → canDraw me n board myTurn = true := by
  induction n with
  | zero =>
    intro board myTurn hlen h
    obtain ⟨c0, c1, c2, c3, c4, c5, c6, c7, c8, rfl⟩ := board_nine board hlen
    unfold canDraw
    simp only [drawCheck] at h
    unfold drawNode at h
    simp only [drawCheck_zero] at h
    rw [checkWinner_nine]
    cases hw : firstLine9 c0 c1 c2 c3 c4 c5 c6 c7 c8 with
    | some w =>
      rw [hw] at h
      simp only at h
      rw [sameMark_eq_true h]
      simp
    | none =>
      rw [hw] at h
      simp only at h
      simp only [reduceCtorEq, if_false]
      rw [← hasEmpty_eq_includesEmpty]
      cases he : hasEmpty [c0, c1, c2, c3, c4, c5, c6, c7, c8] with
      | false => simp
      | true =>
        rw [he] at h
        simp only at h
        cases myTurn with
        | false => simp
        | true =>
          simp [tryCell_false_false] at h
  | succ k ih =>
    intro board myTurn hlen h
    obtain ⟨c0, c1, c2, c3, c4, c5, c6, c7, c8, rfl⟩ := board_nine board hlen
    unfold canDraw
    simp only [drawCheck] at h
    unfold drawNode at h
    rw [checkWinner_nine]
    cases hw : firstLine9 c0 c1 c2 c3 c4 c5 c6 c7 c8 with
    | some w =>
      rw [hw] at h
      simp only at h
      rw [sameMark_eq_true h]
      simp
    | none =>
      rw [hw] at h
      simp only at h
      simp only [reduceCtorEq, if_false]
      rw [← hasEmpty_eq_includesEmpty]
      cases he : hasEmpty [c0, c1, c2, c3, c4, c5, c6, c7, c8] with
      | false => simp
      | true =>
        rw [he] at h
        simp only at h
        simp only [Bool.true_eq_false, if_false]
        cases myTurn with
        | true =>
          simp only [if_true, List.any_eq_true, mem_emptyCellsOf]
          simp only [Bool.or_eq_true] at h
          rcases h with (((((((h | h) | h) | h) | h) | h) | h) | h) | h
          · obtain ⟨hc, hk⟩ := tryCell_false_eq_true h
            exact ⟨4, by simp [hc], ih _ _ (by simp) hk⟩
          · obtain ⟨hc, hk⟩ := tryCell_false_eq_true h
            exact ⟨0, by simp [hc], ih _ _ (by simp) hk⟩
          · obtain ⟨hc, hk⟩ := tryCell_false_eq_true h
            exact ⟨2, by simp [hc], ih _ _ (by simp) hk⟩
          · obtain ⟨hc, hk⟩ := tryCell_false_eq_true h
            exact ⟨6, by simp [hc], ih _ _ (by simp) hk⟩
          · obtain ⟨hc, hk⟩ := tryCell_false_eq_true h
            exact ⟨8, by simp [hc], ih _ _ (by simp) hk⟩
          · obtain ⟨hc, hk⟩ := tryCell_false_eq_true h
            exact ⟨1, by simp [hc], ih _ _ (by simp) hk⟩
          · obtain ⟨hc, hk⟩ := tryCell_false_eq_true h
            exact ⟨3, by simp [hc], ih _ _ (by simp) hk⟩
          · obtain ⟨hc, hk⟩ := tryCell_false_eq_true h
            exact ⟨5, by simp [hc], ih _ _ (by simp) hk⟩
          · obtain ⟨hc, hk⟩ := tryCell_false_eq_true h
            exact ⟨7, by simp [hc], ih _ _ (by simp) hk⟩
        | false =>
          simp only [Bool.false_eq_true, if_false, List.all_eq_true, mem_emptyCellsOf]
          simp only [Bool.and_eq_true] at h
          obtain ⟨⟨⟨⟨⟨⟨⟨⟨h4, h0⟩, h2⟩, h6⟩, h8⟩, h1⟩, h3⟩, h5⟩, h7⟩ := h
          apply forall_empty_nine
          · intro hc; exact ih _ _ (by simp) (tryCell_true_eq_true h0 hc)
          · intro hc; exact ih _ _ (by simp) (tryCell_true_eq_true h1 hc)
          · intro hc; exact ih _ _ (by simp) (tryCell_true_eq_true h2 hc)
          · intro hc; exact ih _ _ (by simp) (tryCell_true_eq_true h3 hc)
          · intro hc; exact ih _ _ (by simp) (tryCell_true_eq_true h4 hc)
          · intro hc; exact ih _ _ (by simp) (tryCell_true_eq_true h5 hc)
          · intro hc; exact ih _ _ (by simp) (tryCell_true_eq_true h6 hc)
          · intro hc; exact ih _ _ (by simp) (tryCell_true_eq_true h7 hc)
          · intro hc; exact ih _ _ (by simp) (tryCell_true_eq_true h8 hc)

/-! ## Unfolding `canDraw` on an open board -/

theorem canDraw_of_winner_other {ai : Player} {n : Nat} {board : Board} {m : Bool}
    (h : canDraw ai n board m = true) : checkWinnerForMinimax board ≠ some ai.other := by
  intro hw
  have h1 : checkWinnerForMinimax board ≠ some ai := by
    rw [hw]
    intro e
    exact Player.other_ne ai (Option.some.inj e)
  unfold canDraw at h
  rw [if_neg h1, if_pos hw] at h
  cases h

theorem canDraw_max_open {ai : Player} {k : Nat} {board : Board}
    (hw : checkWinnerForMinimax board = none) (he : includesEmpty board = true)
    (h : canDraw ai (k + 1) board true = true) :
    ∃ i, board[i]? = some none ∧ canDraw ai k (board.set i (some ai)) false = true := by
  unfold canDraw at h
  simp only [hw, he, reduceCtorEq, if_false, Bool.true_eq_false, if_true,
    List.any_eq_true, mem_emptyCellsOf] at h
  exact h

theorem canDraw_min_open {ai : Player} {k : Nat} {board : Board}
    (hw : checkWinnerForMinimax board = none) (he : includesEmpty board = true)
    (h : canDraw ai (k + 1) board false = true) (i : Nat) (hi : board[i]? = some none) :
    canDraw ai k (board.set i (some ai.other)) true = true := by
  unfold canDraw at h
  simp only [hw, he, reduceCtorEq, if_false, Bool.true_eq_false, Bool.false_eq_true,
    List.all_eq_true, mem_emptyCellsOf] at h
  exact h i hi

/-- The value of a child board is at least `0` exactly when the computer can
hold a draw from it. -/
theorem reference_nonneg_iff (ai : Player) (board : Board) (m : Bool)
    (hlen : board.length = 9) :
    Score.fin 0 ≤ minimaxReference ai board 0 m ↔
      canDraw ai (board.count none) board m = true := by
  unfold minimaxReference
  apply nonneg_iff_canDraw ai _ board 0 m (le_refl 0)
  have := count_none_le_length board
  omega

theorem reference_nonpos_iff (ai : Player) (board : Board) (m : Bool)
    (hlen : board.length = 9) :
    minimaxReference ai board 0 m ≤ Score.fin 0 ↔
      canDraw ai.other (board.count none) board (!m) = true := by
  unfold minimaxReference
  apply nonpos_iff_canDraw ai _ board 0 m (le_refl 0)
  have := count_none_le_length board
  omega

/-! ## The opening move -/

set_option maxRecDepth 100000 in
theorem drawCheck_first : drawCheck .X .O 10 emptyBoard true = true := by
  decide!

set_option maxRecDepth 100000 in
theorem drawCheck_second : drawCheck .O .X 10 emptyBoard false = true := by
  decide!

set_option maxRecDepth 100000 in
theorem drawCheck_second_X : drawCheck .X .O 10 emptyBoard false = true := by
  decide!

set_option maxRecDepth 100000 in
theorem drawCheck_openings_O :
    (List.range 9).all (fun i => drawCheck .O .X 9 (emptyBoard.set i (some .O)) false) = true := by
  decide!

set_option maxRecDepth 100000 in
theorem drawCheck_openings_X :
    (List.range 9).all (fun i => drawCheck .X .O 9 (emptyBoard.set i (some .X)) false) = true := by
  decide!

theorem drawCheck_openings (ai : Player) (i : Nat) (hi : i < 9) :
    drawCheck ai ai.other 9 (emptyBoard.set i (some ai)) false = true := by
  cases ai with
  | X => exact List.all_eq_true.mp drawCheck_openings_X i (List.mem_range.mpr hi)
  | O => exact List.all_eq_true.mp drawCheck_openings_O i (List.mem_range.mpr hi)

theorem canDraw_second (ai : Player) : canDraw ai 9 emptyBoard false = true := by
  cases ai with
  | X => exact drawCheck_sound .X 9 emptyBoard false rfl drawCheck_second_X
  | O => exact drawCheck_sound .O 9 emptyBoard false rfl drawCheck_second

theorem emptyBoard_getElem? (i : Nat) (hi : i < 9) : emptyBoard[i]? = some none := by
  match i, hi with
  | 0, _ | 1, _ | 2, _ | 3, _ | 4, _ | 5, _ | 6, _ | 7, _ | 8, _ => rfl

theorem opening_score (ai : Player) (i : Nat) (hi : i < 9) :
    minimaxReference ai (emptyBoard.set i (some ai)) 0 false = .fin 0 := by
  have hlen : (emptyBoard.set i (some ai)).length = 9 := by rw [List.length_set]; rfl
  have hempty := emptyBoard_getElem? i hi
  have hcount : (emptyBoard.set i (some ai)).count none = 8 := by
    have := count_set_mark emptyBoard i ai hempty
    have h9 : emptyBoard.count none = 9 := by decide
    omega
  obtain ⟨v, hv⟩ := minimaxReference_finite ai (emptyBoard.set i (some ai)) 0 false
  have hlow : Score.fin 0 ≤ minimaxReference ai (emptyBoard.set i (some ai)) 0 false := by
    rw [reference_nonneg_iff _ _ _ hlen, hcount]
    exact drawCheck_sound ai 8 _ _ hlen (drawCheck_openings ai i hi)
  have hhigh : minimaxReference ai (emptyBoard.set i (some ai)) 0 false ≤ Score.fin 0 := by
    rw [reference_nonpos_iff _ _ _ hlen, hcount]
    have := canDraw_min_open (by decide) (by decide) (canDraw_second ai.other) i hempty
    rw [Player.other_other] at this
    exact this
  rw [hv] at hlow hhigh ⊢
  rw [score_fin_le_fin] at hlow hhigh
  congr 1
  omega

/-- C5: on the empty board `findBestMove` returns index `0` (and leaves the
board empty), and each of the nine opening moves has `minimax` score `0`;
this holds whichever mark the computer plays (the script has it play O). -/
theorem findBestMove_emptyBoard (ai : Player) :
    findBestMove ai emptyBoard = some (some 0, emptyBoard) ∧
    ∀ i : Fin 9, moveScore ai emptyBoard i.val = some (.fin 0) := by
  refine ⟨?_, fun i => by rw [moveScore_eq ai emptyBoard i.val rfl, opening_score ai i.val i.isLt]⟩
  obtain ⟨i, v, hbest, hi, hv, hall⟩ := (findBestMove_spec ai emptyBoard rfl).2 (by decide)
  have hi9 : i < 9 := lt_length_of_empty hi
  rw [opening_score ai i hi9] at hv
  have hv0 : v = 0 := by
    simp only [Score.fin.injEq] at hv
    exact hv.symm
  obtain ⟨w, hw, _, hlt⟩ := hall 0 rfl
  rw [opening_score ai 0 (by omega)] at hw
  have hw0 : w = 0 := by
    simp only [Score.fin.injEq] at hw
    exact hw.symm
  have : i = 0 := by
    rcases Nat.eq_zero_or_pos i with h | h
    · exact h
    · have := hlt h
      omega
  rw [hbest, this]

/-! ## The computer at the hard difficulty never loses -/

theorem makeMove_cases (g : Game) (i : Nat) (p : Player) :
    (∃ w, checkWinnerForMinimax (g.gameState.set i (some p)) = some w ∧
      makeMove g i p = handleWin { g with gameState := g.gameState.set i (some p) } w) ∨
    (checkWinnerForMinimax (g.gameState.set i (some p)) = none ∧
      includesEmpty (g.gameState.set i (some p)) = false ∧
      makeMove g i p = handleDraw { g with gameState := g.gameState.set i (some p) }) ∨
    (checkWinnerForMinimax (g.gameState.set i (some p)) = none ∧
      includesEmpty (g.gameState.set i (some p)) = true ∧
      makeMove g i p = { g with gameState := g.gameState.set i (some p),
                                currentPlayer := if g.currentPlayer = .X then .O else .X }) := by
  cases hw : checkWinnerForMinimax (g.gameState.set i (some p)) with
  | some w =>
    left
    refine ⟨w, rfl, ?_⟩
    unfold makeMove
    simp only
    have : checkWinner { g with gameState := g.gameState.set i (some p) } = some w := hw
    rw [this]
  | none =>
    right
    have hcw : checkWinner { g with gameState := g.gameState.set i (some p) } = none := hw
    cases he : includesEmpty (g.gameState.set i (some p)) with
    | false =>
      left
      refine ⟨rfl, rfl, ?_⟩
      unfold makeMove
      simp only
      rw [hcw]
      simp [he]
    | true =>
      right
      refine ⟨rfl, rfl, ?_⟩
      unfold makeMove
      simp only
      rw [hcw]
      simp [he]

theorem findBestMove_keeps_draw (ai : Player) (board : Board) (hlen : board.length = 9)
    (hw : checkWinnerForMinimax board = none) (he : includesEmpty board = true)
    (h : canDraw ai (board.count none) board true = true) :
    ∃ i, findBestMove ai board = some (some i, board) ∧ board[i]? = some none ∧
      canDraw ai ((board.set i (some ai)).count none) (board.set i (some ai)) false = true := by
  obtain ⟨i, v, hbest, hi, hv, hall⟩ := (findBestMove_spec ai board hlen).2 he
  refine ⟨i, hbest, hi, ?_⟩
  have hci := count_set_mark board i ai hi
  rw [← hci] at h
  obtain ⟨j, hj, hcj⟩ := canDraw_max_open hw he h
  have hcj1 := count_set_mark board j ai hj
  have hcount : (board.set i (some ai)).count none = (board.set j (some ai)).count none := by
    omega
  rw [hcount] at hcj
  have hlenj : (board.set j (some ai)).length = 9 := by rw [List.length_set]; exact hlen
  have hleni : (board.set i (some ai)).length = 9 := by rw [List.length_set]; exact hlen
  have h0 := (reference_nonneg_iff ai _ false hlenj).mpr hcj
  obtain ⟨w, hw1, hle, _⟩ := hall j hj
  rw [hw1, score_fin_le_fin] at h0
  apply (reference_nonneg_iff ai _ false hleni).mp
  rw [hv, score_fin_le_fin]
  omega

theorem canDraw_after_opponent (ai : Player) (board : Board)
    (hw : checkWinnerForMinimax board = none) (he : includesEmpty board = true)
    (h : canDraw ai (board.count none) board false = true) (i : Nat)
    (hi : board[i]? = some none) :
    canDraw ai ((board.set i (some ai.other)).count none) (board.set i (some ai.other)) true =
      true := by
  have hci := count_set_mark board i ai.other hi
  rw [← hci] at h
  exact canDraw_min_open hw he h i hi

theorem emptyCellsOf_length_ne_zero {board : Board} (he : includesEmpty board = true) :
    (emptyCellsOf board).length ≠ 0 := by
  intro h
  exact emptyCellsOf_ne_nil he (List.length_eq_zero.mp h)

theorem aiReply_hard (g : Game) (draws : Nat → Draw) (hd : g.difficulty = "hard")
    (he : includesEmpty g.gameState = true) (i : Nat)
    (hbest : findBestMove g.aiPlayer g.gameState = some (some i, g.gameState)) :
    aiReply g draws = some (makeMove g i g.aiPlayer) := by
  unfold aiReply getAIMove
  simp only [emptyCellsOf_length_ne_zero he, if_false, hd]
  have h1 : ¬ ("hard" = "easy") := by decide
  have h2 : ¬ ("hard" = "medium") := by decide
  rw [if_neg h1, if_neg h2]
  unfold hardMove
  rw [hbest]

theorem hardInv_start : HardInv hardGame false := by
  refine ⟨rfl, rfl, rfl, rfl, rfl, fun _ => ⟨by decide, by decide, rfl, ?_⟩, fun h => ?_⟩
  · exact drawCheck_sound .O 9 emptyBoard false rfl drawCheck_second
  · cases h

theorem hardInv_after_move (g : Game) (pending : Bool) (i : Nat)
    (hinv : HardInv g pending) (hactive : g.gameActive = true)
    (hcan : canDraw .O ((g.gameState.set i (some g.currentPlayer)).count none)
      (g.gameState.set i (some g.currentPlayer)) (!pending) = true) :
    HardInv (makeMove g i g.currentPlayer) (!pending) ∨
    (HardInv (makeMove g i g.currentPlayer) false ∧
      (makeMove g i g.currentPlayer).gameActive = false) := by
  obtain ⟨hvs, hai, hdiff, hlen, hsx, hact, _⟩ := hinv
  obtain ⟨_, _, hcur, _⟩ := hact hactive
  have hlen1 : (g.gameState.set i (some g.currentPlayer)).length = 9 := by
    rw [List.length_set]; exact hlen
  rcases makeMove_cases g i g.currentPlayer with ⟨w, hw, hm⟩ | ⟨hw, hfull, hm⟩ | ⟨hw, he, hm⟩
  · right
    have hwO : w = .O := by
      cases w with
      | O => rfl
      | X => exact absurd hw (canDraw_of_winner_other hcan)
    subst hwO
    rw [hm]
    refine ⟨⟨hvs, hai, hdiff, hlen1, hsx, fun h => ?_, fun _ => ⟨rfl, Or.inl hw⟩⟩, rfl⟩
    simp [handleWin] at h
  · right
    rw [hm]
    refine ⟨⟨hvs, hai, hdiff, hlen1, hsx, fun h => ?_, fun _ => ⟨rfl, Or.inr ⟨hw, hfull⟩⟩⟩, rfl⟩
    simp [handleDraw] at h
  · left
    rw [hm]
    refine ⟨hvs, hai, hdiff, hlen1, hsx, fun _ => ⟨hw, he, ?_, hcan⟩, fun h => ?_⟩
    · simp only [hcur]
      cases pending <;> simp
    · exact absurd hactive (by simp only at h; rw [h]; simp)

theorem hardInv_click (g : Game) (i : Int) (hinv : HardInv g false) :
    HardInv (handleCellClick g i).1 (handleCellClick g i).2 := by
  unfold handleCellClick
  split
  · exact hinv
  · rename_i hguard
    simp only [not_or, not_not] at hguard
    obtain ⟨hcell, hactive⟩ := hguard
    have hactive1 : g.gameActive = true := by simpa using hactive
    have hi0 : 0 ≤ i := by
      by_contra hneg
      unfold readCell at hcell
      rw [if_neg hneg] at hcell
      cases hcell
    have hempty : g.gameState[i.toNat]? = some none := by
      unfold readCell at hcell
      rw [if_pos hi0] at hcell
      exact hcell
    obtain ⟨hvs, hai, hdiff, hlen, hsx, hact, hfin⟩ := hinv
    obtain ⟨hw, he, hcur, hcan⟩ := hact hactive1
    have hcurX : g.currentPlayer = .X := by simpa using hcur
    have hcan1 := canDraw_after_opponent .O g.gameState hw he hcan i.toNat hempty
    have hstep := hardInv_after_move g false i.toNat ⟨hvs, hai, hdiff, hlen, hsx, hact, hfin⟩
      hactive1 (by rw [hcurX]; exact hcan1)
    simp only
    rcases hstep with h1 | ⟨h1, h2⟩
    · have hact2 : (makeMove g i.toNat g.currentPlayer).gameActive = true := by
        by_contra hna
        have := (h1.2.2.2.2.2.2 (by simpa using hna)).1
        simp at this
      have hcur2 := ((h1.2.2.2.2.2.1 hact2).2.2.1)
      simp only [Bool.not_false, if_true] at hcur2
      rw [h1.1, hact2, hcur2, h1.2.1]
      exact h1
    · rw [h2]
      simpa using h1

theorem hardInv_reply (g : Game) (draws : Nat → Draw) (hinv : HardInv g true) :
    ∃ g1, aiReply g draws = some g1 ∧ HardInv g1 false := by
  have hinv0 := hinv
  obtain ⟨hvs, hai, hdiff, hlen, hsx, hact, hfin⟩ := hinv
  have hactive : g.gameActive = true := by
    by_contra hna
    have := (hfin (by simpa using hna)).1
    cases this
  obtain ⟨hw, he, hcur, hcan⟩ := hact hactive
  have hcurO : g.currentPlayer = .O := by simpa using hcur
  obtain ⟨i, hbest, hi, hcan1⟩ := findBestMove_keeps_draw .O g.gameState hlen hw he hcan
  have hreply : aiReply g draws = some (makeMove g i g.currentPlayer) := by
    rw [aiReply_hard g draws hdiff he i (by rw [hai]; exact hbest), hai, hcurO]
  refine ⟨_, hreply, ?_⟩
  rcases hardInv_after_move g true i hinv0 hactive (by rw [hcurO]; exact hcan1) with h1 | ⟨h1, _⟩
  · exact h1
  · exact h1

theorem hardPlay_inv (g : Game) (pending : Bool) (h : HardPlay g pending) :
    HardInv g pending := by
  induction h with
  | start => exact hardInv_start
  | click g i _ ih => exact hardInv_click g i ih
  | reply g g1 draws _ hreply ih =>
    obtain ⟨g2, h2, hinv⟩ := hardInv_reply g draws ih
    rw [hreply] at h2
    cases h2
    exact hinv

/-- C2: in a game against the computer at the hard difficulty (computer O,
human X moving first, each scheduled reply running before the next click), no
reachable state has X as the winner; every finished game is a win of O or a
draw on a full board; X never scores; and whenever a reply is scheduled,
`aiReply` returns a state for every sequence of random draws. -/
theorem hard_computer_never_loses (g : Game) (pending : Bool) (h : HardPlay g pending) :
    checkWinner g ≠ some .X ∧
    (g.gameActive = false →
      checkWinner g = some .O ∨ (checkWinner g = none ∧ includesEmpty g.gameState = false)) ∧
    g.scoreX = 0 ∧
    (pending = true → ∀ draws, ∃ g1, aiReply g draws = some g1 ∧ HardPlay g1 false) := by
  have hinv := hardPlay_inv g pending h
  refine ⟨?_, ?_, hinv.2.2.2.2.1, ?_⟩
  · intro hX
    have hX1 : checkWinnerForMinimax g.gameState = some .X := hX
    cases hact : g.gameActive with
    | true =>
      have := (hinv.2.2.2.2.2.1 hact).1
      rw [hX1] at this
      cases this
    | false =>
      rcases (hinv.2.2.2.2.2.2 hact).2 with h1 | ⟨h1, _⟩
      · rw [hX1] at h1; cases h1
      · rw [hX1] at h1; cases h1
  · intro hact
    exact (hinv.2.2.2.2.2.2 hact).2
  · intro hp draws
    subst hp
    obtain ⟨g1, h1, _⟩ := hardInv_reply g draws hinv
    exact ⟨g1, h1, HardPlay.reply g g1 draws h h1⟩

theorem hard_computer_never_loses_witness :
    checkWinner (handleCellClick hardGame 4).1 ≠ some .X ∧
    (handleCellClick hardGame 4).2 = true ∧
    ∃ g1, aiReply (handleCellClick hardGame 4).1 (fun _ => Draw.zero) = some g1 ∧ HardPlay g1 false :=
  have h := hard_computer_never_loses (handleCellClick hardGame 4).1 (handleCellClick hardGame 4).2
    (HardPlay.click hardGame 4 HardPlay.start)
  ⟨h.1, by decide, h.2.2.2 (by decide) (fun _ => Draw.zero)⟩

/-! ## Self-play ends in a draw -/

theorem selfPlay_inactive (n : Nat) (g : Game) (h : g.gameActive = false) :
    selfPlay n g = some g := by
  cases n with
  | zero => rfl
  | succ n =>
    unfold selfPlay
    rw [if_neg (by rw [h]; simp)]

theorem flip_eq_other (p : Player) : (if p = .X then Player.O else Player.X) = p.other := by
  cases p <;> rfl

theorem selfInv_turn (g : Game) (hinv : SelfInv g) :
    ∃ g1, selfPlayTurn g = some g1 ∧
      g1.gameState.count none + 1 = g.gameState.count none ∧ (SelfInv g1 ∨ IsDraw g1) := by
  obtain ⟨hactive, hlen, hw, he, hcan, hcanOther⟩ := hinv
  obtain ⟨i, hbest, hi, hcan1⟩ :=
    findBestMove_keeps_draw g.currentPlayer g.gameState hlen hw he hcan
  have hcan2 := canDraw_after_opponent g.currentPlayer.other g.gameState hw he hcanOther i hi
  rw [Player.other_other] at hcan2
  have hturn : selfPlayTurn g = some (makeMove
      { g with aiPlayer := g.currentPlayer, difficulty := "hard" } i g.currentPlayer) := by
    unfold selfPlayTurn
    exact aiReply_hard { g with aiPlayer := g.currentPlayer, difficulty := "hard" } _ rfl he i hbest
  have hcount := count_set_mark g.gameState i g.currentPlayer hi
  have hlen1 : (g.gameState.set i (some g.currentPlayer)).length = 9 := by
    rw [List.length_set]; exact hlen
  refine ⟨_, hturn, ?_⟩
  rcases makeMove_cases { g with aiPlayer := g.currentPlayer, difficulty := "hard" } i
      g.currentPlayer with ⟨w, hw1, _⟩ | ⟨hw1, hfull, hm⟩ | ⟨hw1, he1, hm⟩
  · exfalso
    simp only at hw1
    by_cases hwc : w = g.currentPlayer
    · have := canDraw_of_winner_other hcan2
      rw [Player.other_other, hw1, hwc] at this
      exact this rfl
    · have := canDraw_of_winner_other hcan1
      rw [hw1, Player.eq_other_of_ne hwc] at this
      exact this rfl
  · rw [hm]
    exact ⟨hcount, Or.inr ⟨rfl, hfull, hw1⟩⟩
  · rw [hm]
    refine ⟨hcount, Or.inl ⟨hactive, hlen1, hw1, he1, ?_, ?_⟩⟩
    · simp only [flip_eq_other]
      exact hcan2
    · simp only [flip_eq_other, Player.other_other]
      exact hcan1

theorem selfPlay_draw (n : Nat) :
    ∀ g, SelfInv g → g.gameState.count none ≤ n → ∃ gf, selfPlay n g = some gf ∧ IsDraw gf := by
  induction n with
  | zero =>
    intro g hinv hcount
    obtain ⟨i, hi⟩ := (includesEmpty_eq_true g.gameState).mp hinv.2.2.2.1
    have := count_set_mark g.gameState i .X hi
    omega
  | succ n ih =>
    intro g hinv hcount
    obtain ⟨g1, hturn, hc, hnext⟩ := selfInv_turn g hinv
    unfold selfPlay
    rw [if_pos hinv.1, hturn]
    simp only
    rcases hnext with h1 | h1
    · exact ih g1 h1 (by omega)
    · exact ⟨g1, selfPlay_inactive n g1 h1.1, h1⟩

theorem selfInv_initial : SelfInv initialGame :=
  ⟨rfl, rfl, by decide, by decide,
    drawCheck_sound .X 9 emptyBoard true rfl drawCheck_first,
    drawCheck_sound .O 9 emptyBoard false rfl drawCheck_second⟩

/-- C3: from the initial game (empty board, X to move), letting each side choose
its move with `findBestMove` on its own turn, play stops within nine turns in a
draw: the game is inactive, the board is full and the evaluator returns no
winner.  More turns allowed change nothing. -/
theorem selfPlay_ends_in_draw (extra : Nat) :
    ∃ g, selfPlay (9 + extra) initialGame = some g ∧
      g.gameActive = false ∧ includesEmpty g.gameState = false ∧ checkWinner g = none := by
  obtain ⟨g, h1, h2⟩ := selfPlay_draw (9 + extra) initialGame selfInv_initial
    (by
      have : initialGame.gameState.count none = 9 := by decide
      omega)
  exact ⟨g, h1, h2⟩

/-! ## Turn alternation -/

theorem handleCellClick_accepted (g : Game) (i : Int)
    (h : ¬ (readCell g.gameState i ≠ some none ∨ g.gameActive = false)) :
    (handleCellClick g i).1 = makeMove g i.toNat g.currentPlayer ∧
      g.gameState[i.toNat]? = some none ∧ g.gameActive = true := by
  have h1 : readCell g.gameState i = some none := by
    by_contra hc
    exact h (Or.inl hc)
  have h2 : g.gameActive = true := by
    cases hg : g.gameActive with
    | true => rfl
    | false => exact absurd (Or.inr hg) h
  refine ⟨?_, ?_, h2⟩
  · unfold handleCellClick
    rw [if_neg h]
  · unfold readCell at h1
    split at h1
    · exact h1
    · cases h1

theorem clickMovers_alternate (clicks : List Int) :
    ∀ (g : Game) (q : Player), (g.gameActive = true → g.currentPlayer = q) →
      ∀ (k : Nat) (p : Player), (clickMovers g clicks)[k]? = some p →
        p = if k % 2 = 0 then q else q.other := by
  induction clicks with
  | nil =>
    intro g q _ k p h
    simp [clickMovers] at h
  | cons i rest ih =>
    intro g q hq k p h
    unfold clickMovers at h
    split at h
    · exact ih g q hq k p h
    · rename_i hacc
      obtain ⟨hm, _, hactive⟩ := handleCellClick_accepted g i hacc
      have hnext : (handleCellClick g i).1.gameActive = true →
          (handleCellClick g i).1.currentPlayer = q.other := by
        rw [hm]
        rcases makeMove_cases g i.toNat g.currentPlayer with
          ⟨w, _, hmm⟩ | ⟨_, _, hmm⟩ | ⟨_, _, hmm⟩
        · rw [hmm]
          intro ha
          unfold handleWin at ha
          split at ha <;> cases ha
        · rw [hmm]
          intro ha
          cases ha
        · rw [hmm]
          intro _
          simp only [flip_eq_other, hq hactive]
      cases k with
      | zero =>
        simp only [List.getElem?_cons_zero, Option.some.injEq] at h
        rw [← h, hq hactive]
        rfl
      | succ k =>
        simp only [List.getElem?_cons_succ] at h
        have := ih _ _ hnext k p h
        rw [this]
        by_cases hk : k % 2 = 0
        · have hk1 : (k + 1) % 2 ≠ 0 := by omega
          rw [if_pos hk, if_neg hk1]
        · have hk1 : (k + 1) % 2 = 0 := by omega
          rw [if_neg hk, if_pos hk1, Player.other_other]

/-- C11: in an in-progress game, a move on an empty cell (by a click, which
moves for the current player, or by any other call of `makeMove`) that neither
completes a line nor fills the board leaves the game active, hands the turn to
the other player and leaves both score counters unchanged; consequently, in any
game played by clicks from the initial state (or any state with X to move), the
accepted moves are made by X, O, X, ... in turn: the move number `k + 1` is made
by X when `k` is even and by O when `k` is odd. -/
theorem turn_alternates (g : Game) (i : Nat) (p : Player)
    (hactive : g.gameActive = true) (hempty : g.gameState[i]? = some none)
    (hline : checkWinnerForMinimax (g.gameState.set i (some p)) = none)
    (hopen : includesEmpty (g.gameState.set i (some p)) = true) :
    ((makeMove g i p).gameActive = true ∧
      (makeMove g i p).currentPlayer = g.currentPlayer.other ∧
      (makeMove g i p).gameState = g.gameState.set i (some p) ∧
      (makeMove g i p).scoreX = g.scoreX ∧ (makeMove g i p).scoreO = g.scoreO) ∧
    (handleCellClick g (i : Int)).1 = makeMove g i g.currentPlayer ∧
    ∀ (start : Game) (clicks : List Int) (k : Nat) (q : Player),
      start.currentPlayer = .X → (clickMovers start clicks)[k]? = some q →
        q = if k % 2 = 0 then .X else .O := by
  refine ⟨?_, ?_, ?_⟩
  · rcases makeMove_cases g i p with ⟨w, hw, _⟩ | ⟨_, hfull, _⟩ | ⟨_, _, hmm⟩
    · rw [hline] at hw; cases hw
    · rw [hopen] at hfull; cases hfull
    · rw [hmm]
      exact ⟨hactive, flip_eq_other _, rfl, rfl, rfl⟩
  · have hcell : readCell g.gameState (i : Int) = some none := by
      unfold readCell
      rw [if_pos (by omega)]
      exact hempty
    have hacc : ¬ (readCell g.gameState (i : Int) ≠ some none ∨ g.gameActive = false) := by
      rw [hcell, hactive]
      simp
    exact (handleCellClick_accepted g i hacc).1
  · intro start clicks k q hstart h
    exact clickMovers_alternate clicks start .X (fun _ => hstart) k q h

theorem turn_alternates_witness :
    (makeMove initialGame 4 .X).currentPlayer = Player.O ∧
    ∀ (clicks : List Int) (k : Nat) (q : Player),
      (clickMovers initialGame clicks)[k]? = some q → q = if k % 2 = 0 then .X else .O :=
  have h := turn_alternates initialGame 4 .X (by decide) (by decide) (by decide) (by decide)
  ⟨h.1.2.1, fun clicks k q => h.2.2 initialGame clicks k q rfl⟩

/-! ## Resets -/

/-- C12: from every state `resetGame` yields the all-empty nine-cell board,
X to move and an active game, and leaves both score counters unchanged;
`restartGame` yields the same board, player and active flag and sets both score
counters to `0`.  Neither changes the mode, the computer mark or the difficulty. -/
theorem reset_and_restart (g : Game) :
    ((resetGame g).1.gameState = emptyBoard ∧ emptyBoard.length = 9 ∧
      (∀ c ∈ emptyBoard, c = none) ∧
      (resetGame g).1.currentPlayer = .X ∧ (resetGame g).1.gameActive = true ∧
      (resetGame g).1.scoreX = g.scoreX ∧ (resetGame g).1.scoreO = g.scoreO) ∧
    ((restartGame g).1.gameState = emptyBoard ∧
      (restartGame g).1.currentPlayer = .X ∧ (restartGame g).1.gameActive = true ∧
      (restartGame g).1.scoreX = 0 ∧ (restartGame g).1.scoreO = 0) ∧
    ((resetGame g).1.vsAI = g.vsAI ∧ (resetGame g).1.aiPlayer = g.aiPlayer ∧
      (resetGame g).1.difficulty = g.difficulty ∧
      (restartGame g).1.vsAI = g.vsAI ∧ (restartGame g).1.aiPlayer = g.aiPlayer ∧
      (restartGame g).1.difficulty = g.difficulty) := by
  refine ⟨⟨rfl, rfl, by decide, rfl, rfl, rfl, rfl⟩, ⟨rfl, rfl, rfl, rfl, rfl⟩,
    ⟨rfl, rfl, rfl, rfl, rfl, rfl⟩⟩

/-! ## Mark counts in the two-player mode -/

theorem markCount_set (board : Board) (i : Nat) (p q : Player) (h : board[i]? = some none) :
    markCount (board.set i (some p)) q = markCount board q + (if p = q then 1 else 0) := by
  have hlt := lt_length_of_empty h
  have hget : board[i] = none := by
    rw [List.getElem?_eq_getElem hlt] at h
    exact Option.some.inj h
  unfold markCount
  rw [List.count_set _ _ _ _ hlt, hget]
  cases p <;> cases q <;> simp

theorem twoPlayerInv_reset (g : Game) (h : g.vsAI = false) : TwoPlayerInv (resetGame g).1 := by
  have h0 : markCount emptyBoard .X = markCount emptyBoard .O := by decide
  exact ⟨h, Or.inl h0, fun _ => Or.inl ⟨rfl, h0⟩⟩

theorem twoPlayerInv_click (g : Game) (i : Int) (hinv : TwoPlayerInv g) :
    TwoPlayerInv (handleCellClick g i).1 := by
  by_cases hacc : readCell g.gameState i ≠ some none ∨ g.gameActive = false
  · unfold handleCellClick
    rw [if_pos hacc]
    exact hinv
  · obtain ⟨hm, hempty, hactive⟩ := handleCellClick_accepted g i hacc
    obtain ⟨hvs, _, hact⟩ := hinv
    rw [hm]
    have hX := markCount_set g.gameState i.toNat g.currentPlayer .X hempty
    have hO := markCount_set g.gameState i.toNat g.currentPlayer .O hempty
    have hcount : (g.currentPlayer = .X ∧
          markCount (g.gameState.set i.toNat (some g.currentPlayer)) .X =
            markCount (g.gameState.set i.toNat (some g.currentPlayer)) .O + 1) ∨
        (g.currentPlayer = .O ∧
          markCount (g.gameState.set i.toNat (some g.currentPlayer)) .X =
            markCount (g.gameState.set i.toNat (some g.currentPlayer)) .O) := by
      rcases hact hactive with ⟨hc, he⟩ | ⟨hc, he⟩
      · left
        rw [hc] at hX hO ⊢
        simp at hX hO
        exact ⟨rfl, by omega⟩
      · right
        rw [hc] at hX hO ⊢
        simp at hX hO
        exact ⟨rfl, by omega⟩
    have hdiff : markCount (g.gameState.set i.toNat (some g.currentPlayer)) .X =
          markCount (g.gameState.set i.toNat (some g.currentPlayer)) .O ∨
        markCount (g.gameState.set i.toNat (some g.currentPlayer)) .X =
          markCount (g.gameState.set i.toNat (some g.currentPlayer)) .O + 1 := by
      rcases hcount with ⟨_, h⟩ | ⟨_, h⟩
      · exact Or.inr h
      · exact Or.inl h
    rcases makeMove_cases g i.toNat g.currentPlayer with
      ⟨w, _, hmm⟩ | ⟨_, _, hmm⟩ | ⟨_, _, hmm⟩
    · rw [hmm]
      refine ⟨?_, ?_, ?_⟩
      · unfold handleWin; split <;> exact hvs
      · unfold handleWin; split <;> exact hdiff
      · intro ha
        unfold handleWin at ha
        split at ha <;> cases ha
    · rw [hmm]
      exact ⟨hvs, hdiff, fun ha => by cases ha⟩
    · rw [hmm]
      refine ⟨hvs, hdiff, fun _ => ?_⟩
      rcases hcount with ⟨hc, h⟩ | ⟨hc, h⟩
      · right
        exact ⟨by simp [hc], h⟩
      · left
        exact ⟨by simp [hc], h⟩

theorem twoPlayer_inv (g : Game) (h : TwoPlayer g) : TwoPlayerInv g := by
  induction h with
  | start => exact ⟨rfl, Or.inl (by decide), fun _ => Or.inl ⟨rfl, by decide⟩⟩
  | click g i _ ih => exact twoPlayerInv_click g i ih
  | newGame g _ ih => exact twoPlayerInv_reset g ih.1
  | fullReset g _ ih => exact twoPlayerInv_reset { g with scoreX := 0, scoreO := 0 } ih.1

/-- C19: in every state reached from the initial state by clicks and resets in
the two-player mode (where no reply is ever scheduled), the number of X on the
board is the number of O or one more, and while the game is active X is to move
exactly when the two numbers are equal. -/
theorem twoPlayer_mark_counts (g : Game) (h : TwoPlayer g) :
    (markCount g.gameState .X = markCount g.gameState .O ∨
      markCount g.gameState .X = markCount g.gameState .O + 1) ∧
    (g.gameActive = true →
      (g.currentPlayer = .X ↔ markCount g.gameState .X = markCount g.gameState .O)) ∧
    (∀ i, (handleCellClick g i).2 = false) ∧ (resetGame g).2 = false := by
  obtain ⟨hvs, hdiff, hact⟩ := twoPlayer_inv g h
  refine ⟨hdiff, ?_, ?_, ?_⟩
  · intro ha
    rcases hact ha with ⟨hc, he⟩ | ⟨hc, he⟩
    · exact ⟨fun _ => he, fun _ => hc⟩
    · constructor
      · intro hx
        rw [hc] at hx
        cases hx
      · intro hx
        omega
  · intro i
    have := (twoPlayerInv_click g i ⟨hvs, hdiff, hact⟩).1
    unfold handleCellClick at this ⊢
    split
    · rfl
    · rename_i hacc
      rw [if_neg hacc] at this
      simp only at this ⊢
      rw [this]
      rfl
  · unfold resetGame
    simp [hvs]

theorem twoPlayer_mark_counts_witness :
    (markCount (handleCellClick initialGame 4).1.gameState .X =
        markCount (handleCellClick initialGame 4).1.gameState .O ∨
      markCount (handleCellClick initialGame 4).1.gameState .X =
        markCount (handleCellClick initialGame 4).1.gameState .O + 1) ∧
    ((handleCellClick initialGame 4).1.gameActive = true →
      ((handleCellClick initialGame 4).1.currentPlayer = .X ↔
        markCount (handleCellClick initialGame 4).1.gameState .X =
          markCount (handleCellClick initialGame 4).1.gameState .O)) :=
  have h := twoPlayer_mark_counts (handleCellClick initialGame 4).1
    (TwoPlayer.click initialGame 4 TwoPlayer.start)
  ⟨h.1, h.2.1⟩

/-! ## The search leaves the board as it found it -/

theorem minimaxLoop_board (recur : Board → Option (Score × Board)) (mark : Player)
    (pick : Score → Score → Score)
    (hrec : ∀ b r, recur b = some r → r.2 = b) (l : List Nat) :
    ∀ (best : Score) (board : Board) (r : Score × Board),
      minimaxLoop recur mark pick l best board = some r → r.2 = board := by
  induction l with
  | nil =>
    intro best board r h
    unfold minimaxLoop at h
    cases h
    rfl
  | cons i rest ih =>
    intro best board r h
    unfold minimaxLoop at h
    split at h
    · rename_i hi
      split at h
      · cases h
      · rename_i score board1 hcall
        have hb : board1 = board.set i (some mark) := hrec _ _ hcall
        rw [hb, set_restore board i _ hi] at h
        exact ih _ _ _ h
    · exact ih _ _ _ h

theorem minimax_board (ai : Player) (fuel : Nat) :
    ∀ (board : Board) (depth : Int) (isMaximizing : Bool) (r : Score × Board),
      minimax ai fuel board depth isMaximizing = some r → r.2 = board := by
  induction fuel with
  | zero =>
    intro board depth isMaximizing r h
    unfold minimax at h
    cases h
  | succ fuel ih =>
    intro board depth isMaximizing r h
    unfold minimax at h
    simp only at h
    split at h
    · cases h; rfl
    · split at h
      · cases h; rfl
      · split at h
        · cases h; rfl
        · split at h
          · exact minimaxLoop_board _ _ _ (fun b r hr => ih b _ _ r hr) _ _ _ _ h
          · exact minimaxLoop_board _ _ _ (fun b r hr => ih b _ _ r hr) _ _ _ _ h

theorem findBestMoveLoop_board (ai : Player) (fuel : Nat) (l : List Nat) :
    ∀ (bestScore : Score) (bestMove : Option Nat) (board : Board) (r : Option Nat × Board),
      findBestMoveLoop ai fuel l bestScore bestMove board = some r → r.2 = board := by
  induction l with
  | nil =>
    intro bestScore bestMove board r h
    unfold findBestMoveLoop at h
    cases h
    rfl
  | cons i rest ih =>
    intro bestScore bestMove board r h
    unfold findBestMoveLoop at h
    split at h
    · rename_i hi
      split at h
      · cases h
      · rename_i score board1 hcall
        have hb : board1 = board.set i (some ai) := minimax_board ai fuel _ _ _ _ hcall
        rw [hb, set_restore board i _ hi] at h
        split at h
        · exact ih _ _ _ _ h
        · exact ih _ _ _ _ h
    · exact ih _ _ _ _ h

/-- C17: on a nine-cell board, with any fuel above the number of empty cells,
`minimax` returns, and the board it returns is the board it was called with;
`findBestMove` returns with the game board unchanged.  More generally, on any
board and with any fuel, a call of `minimax` or `findBestMove` that returns
hands back the board it was given: every placement is undone. -/
theorem search_restores_board (ai : Player) (fuel : Nat) (board : Board) (depth : Int)
    (isMaximizing : Bool) (hlen : board.length = 9) (hfuel : board.count none < fuel) :
    (∃ s, minimax ai fuel board depth isMaximizing = some (s, board)) ∧
    (∃ move, findBestMove ai board = some (move, board)) ∧
    (∀ (fuel1 : Nat) (board1 : Board) (depth1 : Int) (m : Bool) (r : Score × Board),
      minimax ai fuel1 board1 depth1 m = some r → r.2 = board1) ∧
    (∀ (board1 : Board) (r : Option Nat × Board),
      findBestMove ai board1 = some r → r.2 = board1) :=
  ⟨⟨_, minimax_eq_minimaxReference ai fuel board depth isMaximizing hlen hfuel⟩,
    findBestMove_total ai board hlen,
    fun fuel1 board1 depth1 m r h => minimax_board ai fuel1 board1 depth1 m r h,
    fun board1 r h => findBestMoveLoop_board ai searchFuel _ _ _ board1 r h⟩

theorem search_restores_board_witness :
    (∃ s, minimax .O 10 midgameBoard 0 true = some (s, midgameBoard)) ∧
    (∃ move, findBestMove .O midgameBoard = some (move, midgameBoard)) :=
  have h := search_restores_board .O 10 midgameBoard 0 true (by decide) (by decide)
  ⟨h.1, h.2.1⟩

/-! ## The search returns a bounded number -/

theorem minimaxRef_bounds (ai : Player) (n : Nat) :
    ∀ (board : Board) (depth : Int) (isMaximizing : Bool),
      board.count none ≤ n → depth + n ≤ 10 →
      ∃ v, minimaxRef ai n board depth isMaximizing = .fin v ∧
        depth - 10 ≤ v ∧ v ≤ 10 - depth := by
  induction n with
  | zero =>
    intro board depth isMaximizing hcount hd
    unfold minimaxRef
    simp only
    split
    · exact ⟨_, rfl, by omega, by omega⟩
    · split
      · exact ⟨_, rfl, by omega, by omega⟩
      · split
        · exact ⟨_, rfl, by omega, by omega⟩
        · rename_i h3
          obtain ⟨i, hi⟩ := (includesEmpty_eq_true board).mp (by simpa using h3)
          have := count_set_mark board i .X hi
          omega
  | succ k ih =>
    intro board depth isMaximizing hcount hd
    have hchild : ∀ (mark : Player) (m : Bool), ∀ s ∈ (emptyCellsOf board).map (fun i =>
        minimaxRef ai k (board.set i (some mark)) (depth + 1) m),
        ∃ v, s = .fin v ∧ depth - 10 ≤ v ∧ v ≤ 10 - depth := by
      intro mark m s hs
      obtain ⟨i, hi, rfl⟩ := List.mem_map.mp hs
      have := count_set_mark board i mark ((mem_emptyCellsOf board i).mp hi)
      obtain ⟨v, hv, h1, h2⟩ := ih (board.set i (some mark)) (depth + 1) m (by omega) (by omega)
      exact ⟨v, hv, by omega, by omega⟩
    unfold minimaxRef
    simp only
    split
    · exact ⟨_, rfl, by omega, by omega⟩
    · split
      · exact ⟨_, rfl, by omega, by omega⟩
      · split
        · exact ⟨_, rfl, by omega, by omega⟩
        · rename_i h3
          have hne := @emptyCellsOf_ne_nil board (by simpa using h3)
          split
          · exact hchild ai false _ (score_maximum_mem (by simpa using hne))
          · exact hchild ai.other true _ (score_minimum_mem (by simpa using hne))

/-- C20: on a nine-cell board with `k` empty cells, at a depth `d >= 0` with
`d + k <= 9`, `minimax` returns with every fuel above `k` (each recursive call
is on a board with one empty cell less), its result does not depend on the
fuel, and it is a finite integer `s` with `d - 10 <= s <= 10 - d`, not an
infinity. -/
theorem minimax_terminates_bounded (ai : Player) (board : Board) (depth : Int)
    (isMaximizing : Bool) (k : Nat) (hlen : board.length = 9)
    (hk : board.count none = k) (_hdepth : 0 ≤ depth) (hsum : depth + k ≤ 9) :
    ∃ s : Int, (∀ fuel, k < fuel →
        minimax ai fuel board depth isMaximizing = some (.fin s, board)) ∧
      depth - 10 ≤ s ∧ s ≤ 10 - depth ∧
      (∀ i, board[i]? = some none → ∀ p : Player,
        (board.set i (some p)).count none + 1 = k) := by
  obtain ⟨v, hv, h1, h2⟩ := minimaxRef_bounds ai (board.count none) board depth isMaximizing
    (Nat.le_refl _) (by omega)
  refine ⟨v, ?_, h1, h2, ?_⟩
  · intro fuel hfuel
    rw [minimax_eq_minimaxReference ai fuel board depth isMaximizing hlen (by omega)]
    unfold minimaxReference
    rw [hv]
  · intro i hi p
    rw [← hk]
    exact count_set_mark board i p hi

theorem minimax_terminates_bounded_witness :
    ∃ s : Int, (∀ fuel, 3 < fuel → minimax .O fuel midgameBoard 6 true =
        some (.fin s, midgameBoard)) ∧ 6 - 10 ≤ s ∧ s ≤ 10 - 6 :=
  have h := minimax_terminates_bounded .O midgameBoard 6 true 3 (by decide) (by decide)
    (by decide) (by decide)
  h.imp fun _ hs => ⟨hs.1, hs.2.1, hs.2.2.1⟩

/-! ## The doubles of the move selector -/

theorem roundShiftFrom_spec (num : Nat) : ∀ (fuel s : Nat), num ≤ fuel + s →
    (∀ t, t < s → 2 ^ 53 ≤ num / 2 ^ t) →
    num / 2 ^ roundShiftFrom num fuel s < 2 ^ 53 ∧
      (∀ t, t < roundShiftFrom num fuel s → 2 ^ 53 ≤ num / 2 ^ t) ∧
      s ≤ roundShiftFrom num fuel s
  | 0, s, hfuel, hprev => by
    unfold roundShiftFrom
    refine ⟨?_, hprev, le_refl s⟩
    have h1 : num < 2 ^ s := lt_of_le_of_lt (by omega) (Nat.lt_two_pow s)
    rw [Nat.div_eq_of_lt h1]
    exact Nat.two_pow_pos 53
  | fuel + 1, s, hfuel, hprev => by
    unfold roundShiftFrom
    split
    · rename_i h
      exact ⟨h, hprev, le_refl s⟩
    · rename_i h
      have ih := roundShiftFrom_spec num fuel (s + 1) (by omega) (by
        intro t ht
        by_cases hts : t = s
        · rw [hts]; omega
        · exact hprev t (by omega))
      exact ⟨ih.1, ih.2.1, by omega⟩

theorem roundShift_spec (num : Nat) (h : 2 ^ 53 ≤ num) :
    1 ≤ roundShift num ∧ 2 ^ 52 * 2 ^ roundShift num ≤ num ∧
      num < 2 ^ 53 * 2 ^ roundShift num := by
  obtain ⟨h1, h2, _⟩ := roundShiftFrom_spec num num 0 (by omega) (fun t ht => by omega)
  have hpos : 1 ≤ roundShift num := by
    by_contra hc
    have h0 : roundShift num = 0 := by omega
    unfold roundShift at h0
    rw [h0, Nat.pow_zero, Nat.div_one] at h1
    omega
  have hprev := h2 (roundShift num - 1) (by unfold roundShift at hpos ⊢; omega)
  have hsplit : 2 ^ roundShift num = 2 ^ (roundShift num - 1) * 2 := by
    rw [← Nat.pow_succ]
    congr 1
    omega
  have hp1 : 0 < 2 ^ (roundShift num - 1) := Nat.two_pow_pos _
  have hp2 : 0 < 2 ^ roundShift num := Nat.two_pow_pos _
  refine ⟨hpos, ?_, ?_⟩
  · have := (Nat.le_div_iff_mul_le hp1).mp hprev
    rw [hsplit]
    omega
  · have := (Nat.div_lt_iff_lt_mul hp2).mp h1
    exact this

theorem roundSig53_exact (num : Nat) (h : num < 2 ^ 53) : roundSig53 num = num := by
  unfold roundSig53
  rw [if_pos h]

theorem roundSig53_cases (num : Nat) (h : 2 ^ 53 ≤ num) :
    (roundSig53 num = num / 2 ^ roundShift num * 2 ^ roundShift num ∧
        2 * (num % 2 ^ roundShift num) ≤ 2 ^ roundShift num) ∨
      (roundSig53 num = (num / 2 ^ roundShift num + 1) * 2 ^ roundShift num ∧
        2 ^ roundShift num ≤ 2 * (num % 2 ^ roundShift num)) := by
  unfold roundSig53
  rw [if_neg (by omega)]
  split
  · left; exact ⟨rfl, by omega⟩
  · split
    · left; exact ⟨rfl, by omega⟩
    · right; exact ⟨rfl, by omega⟩

theorem roundSig53_le (num : Nat) (h : 2 ^ 53 ≤ num) :
    2 * roundSig53 num ≤ 2 * num + 2 ^ roundShift num := by
  have hdm := Nat.div_add_mod num (2 ^ roundShift num)
  rw [Nat.mul_comm] at hdm
  rcases roundSig53_cases num h with ⟨he, _⟩ | ⟨he, hr⟩
  · rw [he]; omega
  · rw [he, Nat.add_mul, Nat.one_mul]; omega

theorem floorTimes_lt (r : Draw) (n : Nat) (hn : 0 < n) : floorTimes r n < n := by
  have hmant := r.mant_lt
  have hexpo : 2 ^ 53 ≤ 2 ^ r.expo := Nat.pow_le_pow_right (by decide) r.expo_ge
  have hp : r.mant * n + n ≤ 2 ^ 53 * n := by
    have : (r.mant + 1) * n ≤ 2 ^ 53 * n := Nat.mul_le_mul_right n (by omega)
    rw [Nat.add_mul, Nat.one_mul] at this
    exact this
  have hq : 2 ^ 53 * n ≤ 2 ^ r.expo * n := Nat.mul_le_mul_right n hexpo
  unfold floorTimes
  rw [Nat.div_lt_iff_lt_mul (Nat.two_pow_pos _), Nat.mul_comm n]
  by_cases hsmall : r.mant * n < 2 ^ 53
  · rw [roundSig53_exact _ hsmall]
    omega
  · have hbig : 2 ^ 53 ≤ r.mant * n := by omega
    obtain ⟨_, hs1, _⟩ := roundShift_spec _ hbig
    have hle := roundSig53_le _ hbig
    omega

theorem roundSig53_ge (num : Nat) (h : 2 ^ 53 ≤ num) :
    2 * num ≤ 2 * roundSig53 num + 2 ^ roundShift num := by
  have hdm := Nat.div_add_mod num (2 ^ roundShift num)
  rw [Nat.mul_comm] at hdm
  rcases roundSig53_cases num h with ⟨he, hr⟩ | ⟨he, _⟩
  · rw [he]; omega
  · rw [he, Nat.add_mul, Nat.one_mul]
    have := Nat.mod_lt num (Nat.two_pow_pos (roundShift num))
    omega

theorem div_mul_scaled (p s d : Nat) (hs : 0 < s) (hd : 0 < d) :
    p / s * s / (s * d) = p / (s * d) ∧
      ((p / s + 1) * s / (s * d) = p / (s * d) ∨
        (p / s + 1) * s / (s * d) = p / (s * d) + 1) := by
  have hk : p / (s * d) = p / s / d := by rw [Nat.div_div_eq_div_mul]
  rw [hk, Nat.mul_comm (p / s) s, Nat.mul_comm (p / s + 1) s, Nat.mul_div_mul_left _ _ hs,
    Nat.mul_div_mul_left _ _ hs]
  refine ⟨rfl, ?_⟩
  generalize p / s = q
  have h1 : q / d ≤ (q + 1) / d := Nat.div_le_div_right (Nat.le_succ q)
  have h2 : (q + 1) / d < q / d + 2 := by
    rw [Nat.div_lt_iff_lt_mul hd, Nat.add_mul]
    have := Nat.div_add_mod q d
    have := Nat.mod_lt q hd
    rw [Nat.mul_comm (q / d) d]
    omega
  omega

theorem floorTimes_near (r : Draw) (n : Nat) (hn : n ≤ 2 ^ 52) :
    floorTimes r n = r.mant * n / 2 ^ r.expo ∨
      floorTimes r n = r.mant * n / 2 ^ r.expo + 1 := by
  have hmant := r.mant_lt
  unfold floorTimes
  by_cases hsmall : r.mant * n < 2 ^ 53
  · rw [roundSig53_exact _ hsmall]
    left; rfl
  · have hbig : 2 ^ 53 ≤ r.mant * n := by omega
    obtain ⟨_, hs1, _⟩ := roundShift_spec _ hbig
    have hp : r.mant * n ≤ (2 ^ 53 - 1) * 2 ^ 52 :=
      Nat.mul_le_mul (by omega) hn
    have hs : roundShift (r.mant * n) < 53 := by
      by_contra hc
      have : 2 ^ 53 ≤ 2 ^ roundShift (r.mant * n) := Nat.pow_le_pow_right (by decide) (by omega)
      omega
    have hsplit : 2 ^ r.expo =
        2 ^ roundShift (r.mant * n) * 2 ^ (r.expo - roundShift (r.mant * n)) := by
      rw [← Nat.pow_add]
      congr 1
      have := r.expo_ge
      omega
    have hsc := div_mul_scaled (r.mant * n) _ _ (Nat.two_pow_pos (roundShift (r.mant * n)))
      (Nat.two_pow_pos (r.expo - roundShift (r.mant * n)))
    rw [hsplit]
    rcases roundSig53_cases _ hbig with ⟨he, _⟩ | ⟨he, _⟩
    · left
      rw [he]
      exact hsc.1
    · rw [he]
      exact hsc.2

theorem floor_value_mul (r : Draw) (n : Nat) :
    Nat.floor (r.value * (n : ℚ)) = r.mant * n / 2 ^ r.expo := by
  have h : r.value * (n : ℚ) = ((r.mant * n : Nat) : ℚ) / ((2 ^ r.expo : Nat) : ℚ) := by
    unfold Draw.value
    push_cast
    ring
  rw [h, Nat.floor_div_eq_div]

theorem draw_lt_iff (a b : Draw) : a.lt b = true ↔ a.value < b.value := by
  unfold Draw.lt Draw.value
  rw [decide_eq_true_iff, div_lt_div_iff₀ (by positivity) (by positivity)]
  exact_mod_cast Iff.rfl

theorem draw_value_range (r : Draw) : 0 ≤ r.value ∧ r.value < 1 := by
  unfold Draw.value
  refine ⟨by positivity, ?_⟩
  rw [div_lt_one (by positivity)]
  have h : r.mant < 2 ^ r.expo :=
    lt_of_lt_of_le r.mant_lt (Nat.pow_le_pow_right (by decide) r.expo_ge)
  exact_mod_cast h

theorem literal06_nearest :
    literal06.value = 5404319552844595 / 9007199254740992 ∧ literal06.value < 6 / 10 ∧
      6 / 10 - literal06.value < 1 / 2 ^ 54 := by
  unfold Draw.value literal06
  norm_num

theorem literal03_nearest :
    literal03.value = 5404319552844595 / 18014398509481984 ∧ literal03.value < 3 / 10 ∧
      3 / 10 - literal03.value < 1 / 2 ^ 55 := by
  unfold Draw.value literal03
  norm_num

/-! ## The move selector -/

theorem randomCell_mem {cells : List Nat} {r : Draw} {c : Nat}
    (h : randomCell cells r = some c) : c ∈ cells := by
  unfold randomCell at h
  exact List.getElem?_mem h

theorem randomCell_position (cells : List Nat) (r : Draw) (hne : cells.length ≠ 0) :
    ∃ k : Nat, k < cells.length ∧ floorTimes r cells.length = k ∧
      randomCell cells r = cells[k]? ∧ ∃ c, cells[k]? = some c := by
  have hk : floorTimes r cells.length < cells.length :=
    floorTimes_lt r cells.length (Nat.pos_of_ne_zero hne)
  exact ⟨floorTimes r cells.length, hk, rfl, rfl,
    cells[floorTimes r cells.length], List.getElem?_eq_getElem hk⟩

theorem hardMove_spec (g : Game) (hlen : g.gameState.length = 9) :
    ∃ move, hardMove g = some (move, g) ∧
      findBestMove g.aiPlayer g.gameState = some (move, g.gameState) ∧
      (∀ i, move = some i → g.gameState[i]? = some none) ∧
      (move = none ↔ includesEmpty g.gameState = false) := by
  cases he : includesEmpty g.gameState with
  | false =>
    have hb := (findBestMove_spec g.aiPlayer g.gameState hlen).1 he
    refine ⟨none, ?_, hb, (fun i hi => by cases hi), by simp [he]⟩
    unfold hardMove
    rw [hb]
  | true =>
    obtain ⟨i, v, hb, hi, _⟩ := (findBestMove_spec g.aiPlayer g.gameState hlen).2 he
    refine ⟨some i, ?_, hb, ?_, by simp [he]⟩
    · unfold hardMove
      rw [hb]
    · intro j hj
      cases hj
      exact hi

theorem getAIMove_spec (g : Game) (draws : Nat → Draw) (hlen : g.gameState.length = 9) :
    ∃ move, getAIMove g draws = some (move, g) ∧
      (∀ i, move = some i → g.gameState[i]? = some none) ∧
      (includesEmpty g.gameState = false → move = none) ∧
      (includesEmpty g.gameState = true → move ≠ none) := by
  obtain ⟨hm, hhard, _, hcell, hnone⟩ := hardMove_spec g hlen
  have hrandom : ∀ r : Draw, ∃ move, some (randomCell (emptyCellsOf g.gameState) r, g) =
      some (move, g) ∧ (∀ i, move = some i → g.gameState[i]? = some none) ∧
      (includesEmpty g.gameState = false → move = none) ∧
      (includesEmpty g.gameState = true → move ≠ none) := by
    intro r
    refine ⟨_, rfl, ?_, ?_, ?_⟩
    · intro i hi
      exact (mem_emptyCellsOf _ _).mp (randomCell_mem hi)
    · intro hfull
      cases hr : randomCell (emptyCellsOf g.gameState) r with
      | none => rfl
      | some c =>
        exact absurd ((mem_emptyCellsOf _ _).mp (randomCell_mem hr))
          ((includesEmpty_eq_false _).mp hfull c)
    · intro he
      obtain ⟨k, _, _, hk, c, hc⟩ := randomCell_position (emptyCellsOf g.gameState) r
        (emptyCellsOf_length_ne_zero he)
      rw [hk, hc]
      simp
  have hhardcase : ∃ move, hardMove g = some (move, g) ∧
      (∀ i, move = some i → g.gameState[i]? = some none) ∧
      (includesEmpty g.gameState = false → move = none) ∧
      (includesEmpty g.gameState = true → move ≠ none) := by
    refine ⟨hm, hhard, hcell, hnone.mpr, ?_⟩
    intro he hmv
    rw [hnone.mp hmv] at he
    cases he
  unfold getAIMove
  simp only
  by_cases h0 : (emptyCellsOf g.gameState).length = 0
  · rw [if_pos h0]
    refine ⟨none, rfl, (fun i hi => by cases hi), fun _ => rfl, ?_⟩
    intro he
    exact absurd h0 (emptyCellsOf_length_ne_zero he)
  · rw [if_neg h0]
    by_cases heasy : g.difficulty = "easy"
    · rw [if_pos heasy]
      by_cases hr : (draws 0).lt literal06 = true
      · rw [if_pos hr]
        exact hrandom (draws 1)
      · rw [if_neg hr]
        unfold mediumMove
        by_cases hr2 : (draws (0 + 1)).lt literal03 = true
        · rw [if_pos hr2]
          exact hrandom (draws (1 + 1))
        · rw [if_neg hr2]
          exact hhardcase
    · rw [if_neg heasy]
      by_cases hmed : g.difficulty = "medium"
      · rw [if_pos hmed]
        unfold mediumMove
        by_cases hr2 : (draws 0).lt literal03 = true
        · rw [if_pos hr2]
          exact hrandom (draws 1)
        · rw [if_neg hr2]
          exact hhardcase
      · rw [if_neg hmed]
        exact hhardcase

/-- C18: on a nine-cell board, for every difficulty string and all draws (the
doubles in `[0,1)`), `getAIMove` returns (and hands the game back unchanged); when the board
has an empty cell it returns an index in `0..8` whose cell is empty, and the move
it returns is no move exactly when the board is full. -/
theorem getAIMove_returns_empty_cell (g : Game) (draws : Nat → Draw)
    (hlen : g.gameState.length = 9) :
    ∃ move, getAIMove g draws = some (move, g) ∧
      (includesEmpty g.gameState = true →
        ∃ i, move = some i ∧ i < 9 ∧ g.gameState[i]? = some none) ∧
      (move = none ↔ includesEmpty g.gameState = false) := by
  obtain ⟨move, h1, h2, h3, h4⟩ := getAIMove_spec g draws hlen
  refine ⟨move, h1, ?_, ?_⟩
  · intro he
    cases hm : move with
    | none => exact absurd hm (h4 he)
    | some i =>
      have hi := h2 i hm
      exact ⟨i, rfl, by have := lt_length_of_empty hi; omega, hi⟩
  · constructor
    · intro hm
      cases he : includesEmpty g.gameState with
      | false => rfl
      | true => exact absurd hm (h4 he)
    · exact h3

theorem getAIMove_returns_empty_cell_witness :
    ∃ move, getAIMove (gameOn midgameBoard .O) (fun _ => Draw.zero) =
        some (move, gameOn midgameBoard .O) ∧
      (includesEmpty (gameOn midgameBoard .O).gameState = true →
        ∃ i, move = some i ∧ i < 9 ∧ (gameOn midgameBoard .O).gameState[i]? = some none) ∧
      (move = none ↔ includesEmpty (gameOn midgameBoard .O).gameState = false) :=
  getAIMove_returns_empty_cell (gameOn midgameBoard .O) (fun _ => Draw.zero) (by decide)

theorem emptyCellsOf_ascending (board : Board) :
    (emptyCellsOf board).Pairwise (fun a b => a < b) := by
  unfold emptyCellsOf
  exact List.Pairwise.filter _ (List.pairwise_lt_range _)

theorem emptyCellsOf_length_le (board : Board) :
    (emptyCellsOf board).length ≤ board.length := by
  unfold emptyCellsOf
  exact le_trans (List.length_filter_le _ _) (by rw [List.length_range])

theorem aiMove_hard (g : Game) (draws : Nat → Draw) (hlen : g.gameState.length = 9)
    (he : includesEmpty g.gameState = true) (hd : g.difficulty ≠ "easy")
    (hd1 : g.difficulty ≠ "medium") :
    aiMove g draws = (findBestMove g.aiPlayer g.gameState).map Prod.fst := by
  obtain ⟨mv, h1, h2, _⟩ := hardMove_spec g hlen
  unfold aiMove getAIMove
  simp only
  rw [if_neg (emptyCellsOf_length_ne_zero he), if_neg hd, if_neg hd1, h1, h2]
  rfl

theorem aiMove_medium (g : Game) (draws : Nat → Draw) (hlen : g.gameState.length = 9)
    (he : includesEmpty g.gameState = true) (hd : g.difficulty = "medium") :
    aiMove g draws =
      if (draws 0).lt literal03 then some (randomCell (emptyCellsOf g.gameState) (draws 1))
      else (findBestMove g.aiPlayer g.gameState).map Prod.fst := by
  obtain ⟨mv, h1, h2, _⟩ := hardMove_spec g hlen
  have hne : ¬ (g.difficulty = "easy") := by rw [hd]; decide
  unfold aiMove getAIMove
  simp only
  rw [if_neg (emptyCellsOf_length_ne_zero he), if_neg hne, if_pos hd]
  unfold mediumMove
  split
  · rfl
  · rw [h1, h2]
    rfl

theorem aiMove_easy (g : Game) (draws : Nat → Draw) (hlen : g.gameState.length = 9)
    (he : includesEmpty g.gameState = true) (hd : g.difficulty = "easy") :
    aiMove g draws =
      if (draws 0).lt literal06 then some (randomCell (emptyCellsOf g.gameState) (draws 1))
      else if (draws 1).lt literal03 then
        some (randomCell (emptyCellsOf g.gameState) (draws 2))
      else (findBestMove g.aiPlayer g.gameState).map Prod.fst := by
  obtain ⟨mv, h1, h2, _⟩ := hardMove_spec g hlen
  unfold aiMove getAIMove
  simp only
  rw [if_neg (emptyCellsOf_length_ne_zero he), if_pos hd]
  unfold mediumMove
  split
  · rfl
  · split
    · rfl
    · rw [h1, h2]
      rfl

/-- C14 (as the code has it): on a nine-cell board with an empty cell,
`getAIMove` is one cascade over the draws, which are doubles in `[0,1)`.  On
`easy`, if the first draw is below the double `0.6` it returns the empty cell at
position `Math.floor(r2 * n)` of the ascending list of the `n` empty cells,
otherwise what `medium` returns on the remaining draws; on `medium`, if the
first draw is below the double `0.3` it returns the empty cell at position
`Math.floor(r2 * n)`, otherwise what `hard` returns; on `hard` (and on any other
string) it returns the move of `findBestMove`, whatever the draws.  The position
`Math.floor(r2 * n)` is the floor of the double product: it is below `n` and it
is `floor(r2 * n)` or, when the product rounds up to an integer,
`floor(r2 * n) + 1`; the doubles `0.6` and `0.3` are
`5404319552844595 / 2 ^ 53` and `5404319552844595 / 2 ^ 54`, below 6/10 and 3/10. -/
theorem getAIMove_cascade (g : Game) (draws : Nat → Draw) (hlen : g.gameState.length = 9)
    (hempty : includesEmpty g.gameState = true) :
    (g.difficulty = "easy" →
      aiMove g draws =
        if (draws 0).lt literal06 then
          some (randomCell (emptyCellsOf g.gameState) (draws 1))
        else aiMove { g with difficulty := "medium" } (fun n => draws (n + 1))) ∧
    (g.difficulty = "medium" →
      aiMove g draws =
        if (draws 0).lt literal03 then
          some (randomCell (emptyCellsOf g.gameState) (draws 1))
        else aiMove { g with difficulty := "hard" } (fun n => draws (n + 1))) ∧
    (g.difficulty ≠ "easy" → g.difficulty ≠ "medium" → ∀ other : Nat → Draw,
      aiMove g other = (findBestMove g.aiPlayer g.gameState).map Prod.fst) ∧
    (∀ r : Draw,
      ∃ k : Nat, k < (emptyCellsOf g.gameState).length ∧
        floorTimes r (emptyCellsOf g.gameState).length = k ∧
        (k = Nat.floor (r.value * ((emptyCellsOf g.gameState).length : ℚ)) ∨
          k = Nat.floor (r.value * ((emptyCellsOf g.gameState).length : ℚ)) + 1) ∧
        randomCell (emptyCellsOf g.gameState) r = (emptyCellsOf g.gameState)[k]? ∧
        ∃ c, (emptyCellsOf g.gameState)[k]? = some c) ∧
    (∀ r : Draw, 0 ≤ r.value ∧ r.value < 1 ∧
      (r.lt literal06 = true ↔ r.value < 5404319552844595 / 2 ^ 53) ∧
      (r.lt literal03 = true ↔ r.value < 5404319552844595 / 2 ^ 54)) ∧
    (emptyCellsOf g.gameState).Pairwise (fun a b => a < b) ∧
    (∀ i, i ∈ emptyCellsOf g.gameState ↔ g.gameState[i]? = some none) := by
  refine ⟨?_, ?_, ?_, ?_, ?_, emptyCellsOf_ascending _, mem_emptyCellsOf _⟩
  · intro hd
    rw [aiMove_easy g draws hlen hempty hd,
      aiMove_medium { g with difficulty := "medium" } _ hlen hempty rfl]
  · intro hd
    rw [aiMove_medium g draws hlen hempty hd,
      aiMove_hard { g with difficulty := "hard" } _ hlen hempty
        (show "hard" ≠ "easy" by decide) (show "hard" ≠ "medium" by decide)]
  · intro hd hd1 other
    exact aiMove_hard g other hlen hempty hd hd1
  · intro r
    obtain ⟨k, hk, hf, hr, hc⟩ := randomCell_position (emptyCellsOf g.gameState) r
      (emptyCellsOf_length_ne_zero hempty)
    have hle : (emptyCellsOf g.gameState).length ≤ 2 ^ 52 :=
      le_trans (emptyCellsOf_length_le _) (by rw [hlen]; decide)
    refine ⟨k, hk, hf, ?_, hr, hc⟩
    rw [floor_value_mul, ← hf]
    exact floorTimes_near r _ hle
  · intro r
    refine ⟨(draw_value_range r).1, (draw_value_range r).2, ?_, ?_⟩
    · rw [draw_lt_iff, literal06_nearest.1]
      norm_num
    · rw [draw_lt_iff, literal03_nearest.1]
      norm_num

theorem getAIMove_cascade_witness :
    aiMove { gameOn midgameBoard .O with difficulty := "easy" }
        (drawsFrom [literal06, Draw.zero, twoThirds]) =
      if (drawsFrom [literal06, Draw.zero, twoThirds] 0).lt literal06 then
        some (randomCell (emptyCellsOf midgameBoard)
          (drawsFrom [literal06, Draw.zero, twoThirds] 1))
      else aiMove { gameOn midgameBoard .O with difficulty := "medium" }
        (fun n => drawsFrom [literal06, Draw.zero, twoThirds] (n + 1)) :=
  (getAIMove_cascade { gameOn midgameBoard .O with difficulty := "easy" }
    (drawsFrom [literal06, Draw.zero, twoThirds]) (by decide) (by decide)).1 rfl

/-- C14 (as the spec states it) fails at draws that are doubles.  The board
`midgameBoard` has the three empty cells 5, 6, 8.  On `medium` with the draws
`0` and `0.6666666666666666`, `floor(r2 * 3)` is 1, the cell 6, and `getAIMove`
returns the cell 8 at position 2: the double product is `2`.  On `easy` with
the first draw the double `0.6`, which is below 6/10, and the second draw `0`,
the cell at position `floor(r2 * 3) = 0` is 5, and `getAIMove` goes on to
`medium` and returns the cell 8 of the third draw. -/
theorem getAIMove_exact_floor_fails :
    emptyCellsOf midgameBoard = [5, 6, 8] ∧
    Draw.zero.value < 3 / 10 ∧ Nat.floor (twoThirds.value * 3) = 1 ∧
    aiMove { gameOn midgameBoard .O with difficulty := "medium" }
      (drawsFrom [Draw.zero, twoThirds]) = some (some 8) ∧
    literal06.value < 6 / 10 ∧ Nat.floor (Draw.zero.value * 3) = 0 ∧
    aiMove { gameOn midgameBoard .O with difficulty := "easy" }
      (drawsFrom [literal06, Draw.zero, twoThirds]) = some (some 8) := by
  refine ⟨by decide, ?_, ?_, by decide, literal06_nearest.2.1, ?_, by decide⟩
  · unfold Draw.value Draw.zero
    norm_num
  · have h := floor_value_mul twoThirds 3
    rw [Nat.cast_ofNat] at h
    rw [h]
    decide
  · have h := floor_value_mul Draw.zero 3
    rw [Nat.cast_ofNat] at h
    rw [h]
    decide

/-! ## Every move fills one empty cell -/

theorem fillsCell_set (board : Board) (i : Nat) (p : Player) (h : board[i]? = some none) :
    FillsCell board (board.set i (some p)) i p := by
  refine ⟨h, ?_, List.length_set _ _ _, ?_⟩
  · rw [List.getElem?_set_self (lt_length_of_empty h)]
  · intro j hj
    rw [List.getElem?_set_ne (Ne.symm hj)]

theorem makeMove_gameState (g : Game) (i : Nat) (p : Player) :
    (makeMove g i p).gameState = g.gameState.set i (some p) := by
  rcases makeMove_cases g i p with ⟨w, _, hm⟩ | ⟨_, _, hm⟩ | ⟨_, _, hm⟩
  · rw [hm]
    unfold handleWin
    split <;> rfl
  · rw [hm]; rfl
  · rw [hm]

theorem fillsCell_keeps {before after : Board} {i : Nat} {p : Player}
    (h : FillsCell before after i p) (j : Nat) (q : Player)
    (hj : before[j]? = some (some q)) : after[j]? = some (some q) := by
  by_cases hji : j = i
  · subst hji
    rw [h.1] at hj
    cases hj
  · rw [h.2.2.2 j hji]
    exact hj

theorem step_click_eq (s : Session) (i : Int) :
    s.step (.click i) =
      some { game := (handleCellClick s.game i).1,
             pending := s.pending + (if (handleCellClick s.game i).2 = true then 1 else 0) } :=
  rfl

theorem step_reply_eq (s : Session) (draws : Nat → Draw) :
    s.step (.reply draws) =
      if s.pending = 0 then none
      else
        match aiReply s.game draws with
        | none => none
        | some g1 => some { game := g1, pending := s.pending - 1 } :=
  rfl

theorem step_click_accepted (s : Session) (i : Int)
    (hcell : readCell s.game.gameState i = some none) (hactive : s.game.gameActive = true) :
    ∃ s1, s.step (.click i) = some s1 ∧
      FillsCell s.game.gameState s1.game.gameState i.toNat s.game.currentPlayer := by
  have hacc : ¬ (readCell s.game.gameState i ≠ some none ∨ s.game.gameActive = false) := by
    rw [hcell, hactive]
    simp
  obtain ⟨hm, hempty, _⟩ := handleCellClick_accepted s.game i hacc
  refine ⟨_, rfl, ?_⟩
  simp only
  rw [hm, makeMove_gameState]
  exact fillsCell_set _ _ _ hempty

theorem step_reply_move (s : Session) (draws : Nat → Draw) (g1 : Game) (i : Nat)
    (hlen : s.game.gameState.length = 9) (hpending : 0 < s.pending)
    (hmove : getAIMove s.game draws = some (some i, g1)) :
    ∃ s1, s.step (.reply draws) = some s1 ∧
      FillsCell s.game.gameState s1.game.gameState i s.game.aiPlayer := by
  obtain ⟨mv, h1, h2, _⟩ := getAIMove_spec s.game draws hlen
  rw [h1] at hmove
  simp only [Option.some.injEq, Prod.mk.injEq] at hmove
  obtain ⟨hmv, hg⟩ := hmove
  subst hg
  have hempty := h2 i hmv
  refine ⟨{ game := makeMove s.game i s.game.aiPlayer, pending := s.pending - 1 }, ?_, ?_⟩
  · rw [step_reply_eq, if_neg (by omega)]
    unfold aiReply
    rw [h1, hmv]
  · simp only
    rw [makeMove_gameState]
    exact fillsCell_set _ _ _ hempty

theorem step_board (s s1 : Session) (e : Event) (hlen : s.game.gameState.length = 9)
    (h : s.step e = some s1) :
    s1.game.gameState = s.game.gameState ∨
      ∃ i p, FillsCell s.game.gameState s1.game.gameState i p := by
  cases e with
  | click i =>
    by_cases hacc : readCell s.game.gameState i ≠ some none ∨ s.game.gameActive = false
    · left
      rw [step_click_eq] at h
      simp only [Option.some.injEq] at h
      rw [← h]
      unfold handleCellClick
      rw [if_pos hacc]
    · right
      have hcell : readCell s.game.gameState i = some none := by
        by_contra hc
        exact hacc (Or.inl hc)
      obtain ⟨_, _, hactive⟩ := handleCellClick_accepted s.game i hacc
      obtain ⟨s2, h2, hf⟩ := step_click_accepted s i hcell hactive
      rw [h] at h2
      cases h2
      exact ⟨_, _, hf⟩
  | reply draws =>
    obtain ⟨mv, h1, _⟩ := getAIMove_spec s.game draws hlen
    have hp : 0 < s.pending := by
      rcases Nat.eq_zero_or_pos s.pending with h0 | h0
      · rw [step_reply_eq, if_pos h0] at h
        cases h
      · exact h0
    cases mv with
    | none =>
      left
      rw [step_reply_eq, if_neg (by omega)] at h
      unfold aiReply at h
      rw [h1] at h
      simp only [Option.some.injEq] at h
      rw [← h]
    | some i =>
      right
      obtain ⟨s2, h2, hf⟩ := step_reply_move s draws s.game i hlen hp h1
      rw [h] at h2
      cases h2
      exact ⟨_, _, hf⟩

theorem run_board (events : List Event) :
    ∀ (s s1 : Session), s.game.gameState.length = 9 → s.run events = some s1 →
      s1.game.gameState.length = 9 ∧
      ∀ (j : Nat) (q : Player), s.game.gameState[j]? = some (some q) →
        s1.game.gameState[j]? = some (some q) := by
  induction events with
  | nil =>
    intro s s1 hlen h
    unfold Session.run at h
    cases h
    exact ⟨hlen, fun _ _ hj => hj⟩
  | cons e rest ih =>
    intro s s1 hlen h
    unfold Session.run at h
    split at h
    · cases h
    · rename_i s2 hstep
      rcases step_board s s2 e hlen hstep with hsame | ⟨i, p, hf⟩
      · obtain ⟨h1, h2⟩ := ih s2 s1 (by rw [hsame]; exact hlen) h
        exact ⟨h1, fun j q hj => h2 j q (by rw [hsame]; exact hj)⟩
      · obtain ⟨h1, h2⟩ := ih s2 s1 (by rw [hf.2.2.1]; exact hlen) h
        exact ⟨h1, fun j q hj => h2 j q (fillsCell_keeps hf j q hj)⟩

/-- C16: in a session on a nine-cell board, an accepted click fills the clicked
empty cell with the current player's mark and a reply fills the cell returned by
`getAIMove`, which is empty, with the computer's mark; in both cases no other
cell changes.  Along any sequence of clicks and replies the board keeps nine
cells and every marked cell keeps its mark. -/
theorem move_fills_one_empty_cell (s : Session) (hlen : s.game.gameState.length = 9) :
    (∀ i : Int, readCell s.game.gameState i = some none → s.game.gameActive = true →
      ∃ s1, s.step (.click i) = some s1 ∧
        FillsCell s.game.gameState s1.game.gameState i.toNat s.game.currentPlayer) ∧
    (∀ (draws : Nat → Draw) (g1 : Game) (i : Nat), 0 < s.pending →
      getAIMove s.game draws = some (some i, g1) →
      ∃ s1, s.step (.reply draws) = some s1 ∧
        FillsCell s.game.gameState s1.game.gameState i s.game.aiPlayer) ∧
    (∀ (events : List Event) (s1 : Session), s.run events = some s1 →
      s1.game.gameState.length = 9 ∧
      ∀ (j : Nat) (q : Player), s.game.gameState[j]? = some (some q) →
        s1.game.gameState[j]? = some (some q)) :=
  ⟨fun i hcell hactive => step_click_accepted s i hcell hactive,
    fun draws g1 i hp hmove => step_reply_move s draws g1 i hlen hp hmove,
    fun events s1 h => run_board events s s1 hlen h⟩

theorem move_fills_one_empty_cell_witness :
    ∃ s1, hardSession.step (.click 4) = some s1 ∧
      FillsCell hardSession.game.gameState s1.game.gameState 4 .X :=
  (move_fills_one_empty_cell hardSession (by decide)).1 4 (by decide) (by decide)

/-! ## Clicks while a reply is scheduled -/

/-- C15 (the code at the failing input): against the computer, after the click
on cell 0 a reply is scheduled, the game is in progress and the computer, O, is
to move; the next click, on cell 3, is accepted all the same, before the reply
has run: `handleCellClick` writes the computer's mark O on cell 3 and the reply
is still scheduled. -/
theorem click_accepted_while_reply_pending :
    (hardSession.run [.click 0]).map
        (fun s => (s.pending, s.game.gameActive, s.game.currentPlayer, s.game.gameState)) =
      some (1, true, .O, [some .X, none, none, none, none, none, none, none, none]) ∧
    (hardSession.run [.click 0, .click 3]).map
        (fun s => (s.pending, s.game.gameActive, s.game.currentPlayer, s.game.gameState)) =
      some (1, true, .X, [some .X, none, none, some .O, none, none, none, none, none]) := by
  decide

/-- C13 (the code at the failing input): against the computer, the clicks on
cells 0, 3, 1, 4, 2, all made before the reply scheduled by the first click has
run, complete the line 0, 1, 2 for X and end the game; the reply then runs on the
finished game and completes the line 3, 4, 5 for O.  The board reached has a
complete line of each player, and X has been counted as winner twice. -/
theorem both_players_complete_a_line :
    (hardSession.run [.click 0, .click 3, .click 1, .click 4, .click 2]).map
        (fun s => (s.pending, s.game.gameActive, s.game.scoreX, s.game.gameState)) =
      some (2, false, 1,
        [some .X, some .X, some .X, some .O, some .O, none, none, none, none]) ∧
    (hardSession.run
        [.click 0, .click 3, .click 1, .click 4, .click 2, .reply (fun _ => Draw.zero)]).map
        (fun s => (s.pending, s.game.gameActive, s.game.scoreX, s.game.gameState)) =
      some (1, false, 2,
        [some .X, some .X, some .X, some .O, some .O, some .O, none, none, none]) ∧
    lineComplete [some .X, some .X, some .X, some .O, some .O, some .O, none, none, none]
      (0, 1, 2) .X ∧
    lineComplete [some .X, some .X, some .X, some .O, some .O, some .O, none, none, none]
      (3, 4, 5) .O := by
  refine ⟨by decide, by decide, ?_, ?_⟩
  · exact ⟨rfl, rfl, rfl⟩
  · exact ⟨rfl, rfl, rfl⟩

/-! ## One winner in the two-player mode -/

theorem lineComplete_of_set {board : Board} {i : Nat} {p q : Player} {line : Nat × Nat × Nat}
    (h : lineComplete (board.set i (some p)) line q) (hqp : q ≠ p) :
    lineComplete board line q := by
  have hcell : ∀ j : Nat, (board.set i (some p))[j]? = some (some q) →
      board[j]? = some (some q) := by
    intro j hj
    rw [List.getElem?_set] at hj
    split at hj
    · split at hj
      · simp only [Option.some.injEq] at hj
        exact absurd hj.symm hqp
      · cases hj
    · exact hj
  exact ⟨hcell _ h.1, hcell _ h.2.1, hcell _ h.2.2⟩

/-- In the two-player mode, where no reply is ever scheduled, an active game has
no complete line and no reachable board has a complete line of each player. -/
theorem twoPlayer_lines (g : Game) (h : TwoPlayer g) :
    (g.gameActive = true → checkWinnerForMinimax g.gameState = none) ∧
    ∀ l1 ∈ winningConditions, ∀ l2 ∈ winningConditions,
      ¬ (lineComplete g.gameState l1 .X ∧ lineComplete g.gameState l2 .O) := by
  have hreset : (checkWinnerForMinimax emptyBoard = none) ∧
      ∀ l1 ∈ winningConditions, ∀ l2 ∈ winningConditions,
        ¬ (lineComplete emptyBoard l1 .X ∧ lineComplete emptyBoard l2 .O) := by
    have h0 : checkWinnerForMinimax emptyBoard = none := by decide
    refine ⟨h0, ?_⟩
    intro l1 h1 _ _ hc
    exact (scanLines_eq_none emptyBoard winningConditions).mp h0 l1 h1 .X hc.1
  induction h with
  | start => exact ⟨fun _ => hreset.1, hreset.2⟩
  | newGame g _ _ => exact ⟨fun _ => hreset.1, hreset.2⟩
  | fullReset g _ _ => exact ⟨fun _ => hreset.1, hreset.2⟩
  | click g i _ ih =>
    by_cases hacc : readCell g.gameState i ≠ some none ∨ g.gameActive = false
    · unfold handleCellClick
      rw [if_pos hacc]
      exact ih
    · obtain ⟨hm, _, hactive⟩ := handleCellClick_accepted g i hacc
      have hnone := (scanLines_eq_none g.gameState winningConditions).mp (ih.1 hactive)
      rw [hm]
      constructor
      · intro ha
        rcases makeMove_cases g i.toNat g.currentPlayer with
          ⟨w, _, hmm⟩ | ⟨_, _, hmm⟩ | ⟨hw, _, hmm⟩
        · rw [hmm] at ha
          unfold handleWin at ha
          split at ha <;> cases ha
        · rw [hmm] at ha
          cases ha
        · rw [makeMove_gameState]
          exact hw
      · rw [makeMove_gameState]
        intro l1 h1 l2 h2 hc
        cases hcur : g.currentPlayer with
        | X =>
          rw [hcur] at hc
          exact hnone l2 h2 .O (lineComplete_of_set hc.2 (by decide))
        | O =>
          rw [hcur] at hc
          exact hnone l1 h1 .X (lineComplete_of_set hc.1 (by decide))

end TicTacToe
